import Mathlib

/-
  Verification development for the mercor-applicant-tracker repository.

  Shallow embedding of the four Python modules:
    json_automation.py      : compress_applicant_data / decompress_applicant_data
    shortlist_automation.py : calculate_experience_years / shortlist_applicant
    llm_automation.py       : evaluate_applicant_with_llm (retry loop, staleness skip)
    main.py                 : dispatcher exit behaviour

  The Airtable base is modelled as an explicit state (`Base`): each table is an
  association list from an internal record id (modelled as Nat, Airtable ids are
  opaque) to a field record; absent fields are `none`.  Airtable link fields are
  bidirectional: writing the back-link field of a child record makes the parent
  link field gain that id, and deleting a record removes its id from link fields;
  the model maintains the relation in the parent link list.  `batch_delete` is
  modelled as removing the listed ids pointwise.  Numeric JSON values are
  modelled as rationals, float arithmetic of the source as exact rational
  arithmetic.
-/

namespace Mercor

/-- Items of an Airtable link field value as the code reads them:
a raw record-id string, a dict carrying an id, or anything else. -/
inductive LinkItem where
  | str (i : Nat)
  | obj (i : Nat)
  | other
deriving DecidableEq, Repr

/-- Fields of a Personal Details record. -/
structure PersonalFields where
  fullName : Option String
  email : Option String
  location : Option String
  linkedin : Option String
deriving DecidableEq, Repr

/-- Fields of a Work Experience record.  An absent Technologies field reads as
the empty list (the code uses fields.get with default [] and Airtable omits
empty multi-value fields), so it is modelled as a plain list. -/
structure WorkFields where
  company : Option String
  title : Option String
  startDate : Option String
  endDate : Option String
  technologies : List String
deriving DecidableEq, Repr

/-- Fields of a Salary Preferences record. -/
structure SalaryFields where
  preferredRate : Option ℚ
  minimumRate : Option ℚ
  currency : Option String
  availability : Option ℚ
deriving DecidableEq, Repr

/-- The personal object of a compressed snapshot (the non-empty dict case). -/
structure PersonalJson where
  name : Option String
  email : Option String
  location : Option String
  linkedin : Option String
deriving DecidableEq, Repr

/-- One element of the experience array of a compressed snapshot. -/
structure ExpObj where
  company : Option String
  title : Option String
  start_date : Option String
  end_date : Option String
  technologies : Option (List String)
deriving DecidableEq, Repr

/-- The salary object of a compressed snapshot (the non-empty dict case). -/
structure SalaryJson where
  preferred_rate : Option ℚ
  minimum_rate : Option ℚ
  currency : Option String
  availability_hrs_wk : Option ℚ
deriving DecidableEq, Repr

/-- A parsed compressed snapshot: personal / experience / salary sections.
`none` for personal or salary models the empty dict, which is falsy. -/
structure Snapshot where
  personal : Option PersonalJson
  experience : List ExpObj
  salary : Option SalaryJson
deriving DecidableEq, Repr

/-- The Compressed JSON text field: absent or empty (falsy), present but not
valid JSON, or present and parseable. -/
inductive CJson where
  | empty
  | bad
  | ok (s : Snapshot)
deriving DecidableEq, Repr

/-- Fields of an Applicants record that the four automations read or write. -/
structure AppFields where
  applicantId : Option String
  personalLink : Option (List LinkItem)
  workLink : Option (List LinkItem)
  salaryLink : Option (List LinkItem)
  compressedJson : CJson
  shortlistStatus : Option String
  lastModified : Option String
  llmLastEvaluated : Option String
  llmSummary : Option String
  llmScore : Option Int
  llmFollowUps : Option String
deriving DecidableEq, Repr

/-- Fields of a Shortlisted Leads record. -/
structure LeadFields where
  applicantRef : List Nat
  leadJson : CJson
  scoreReason : String
deriving DecidableEq, Repr

/-- The whole table store: one association list per table plus a counter
supplying fresh internal record ids. -/
structure Base where
  applicants : List (Nat × AppFields)
  personalTbl : List (Nat × PersonalFields)
  workTbl : List (Nat × WorkFields)
  salaryTbl : List (Nat × SalaryFields)
  leadsTbl : List (Nat × LeadFields)
  nextId : Nat
deriving DecidableEq, Repr

/-- table.get by record id (first matching entry). -/
def tget {α : Type} (tbl : List (Nat × α)) (i : Nat) : Option α :=
  (tbl.find? (fun p => decide (p.1 = i))).map (fun p => p.2)

/-- table.update: replace the fields of the record with the given id. -/
def tupdate {α : Type} (tbl : List (Nat × α)) (i : Nat) (f : α → α) : List (Nat × α) :=
  tbl.map (fun p => if p.1 = i then (p.1, f p.2) else p)

/-- table.batch_delete: drop the records whose id is listed. -/
def tdeleteMany {α : Type} (tbl : List (Nat × α)) (ids : List Nat) : List (Nat × α) :=
  tbl.filter (fun p => decide (¬ ids.contains p.1))

/-- Last-wins association lookup, modelling a Python dict comprehension where a
later entry with the same key overwrites an earlier one. -/
def dlookLast {α β : Type} [DecidableEq α] (m : List (α × β)) (k : α) : Option β :=
  (m.reverse.find? (fun p => decide (p.1 = k))).map (fun p => p.2)

/-- get_first_linked_record_id from json_automation.py. -/
def getFirstLinkedRecordId : Option (List LinkItem) → Option Nat
  | some (it :: _) =>
      match it with
      | .str i => some i
      | .obj i => some i
      | .other => none
  | _ => none

/-- get_all_linked_record_ids from json_automation.py. -/
def getAllLinkedRecordIds : Option (List LinkItem) → List Nat
  | some l => l.filterMap (fun it =>
      match it with
      | .str i => some i
      | .obj i => some i
      | .other => none)
  | none => []

/-- Formula lookup `{Applicant ID} = 'text'`, taking the first matching record
as the code does with applicant_records[0]; an absent field compares as the
empty string. -/
def findApplicant (b : Base) (t : String) : Option (Nat × AppFields) :=
  b.applicants.find? (fun p => decide (p.2.applicantId.getD "" = t))

/-- Option override: the first value when present, otherwise the second.  Used
to model dict updates that filter out None values, which keep the old stored
field when the incoming value is null or absent. -/
def optOr {α : Type} : Option α → Option α → Option α
  | some x, _ => some x
  | none, b => b

/-- The (company, title) reconciliation key of a stored Work Experience record. -/
def wkey (w : WorkFields) : Option String × Option String := (w.company, w.title)

/-- The (company, title) reconciliation key of a snapshot experience entry. -/
def ekey (e : ExpObj) : Option String × Option String := (e.company, e.title)

/-- The snapshot entry the compressor emits for a Work Experience record. -/
def expOf (w : WorkFields) : ExpObj :=
  ⟨w.company, w.title, w.startDate, w.endDate, some w.technologies⟩

/-- The personal section the compressor emits for a Personal Details record. -/
def personalJsonOf (p : PersonalFields) : PersonalJson :=
  ⟨p.fullName, p.email, p.location, p.linkedin⟩

/-- The salary section the compressor emits for a Salary Preferences record. -/
def salaryJsonOf (s : SalaryFields) : SalaryJson :=
  ⟨s.preferredRate, s.minimumRate, s.currency, s.availability⟩

/-- The batched Work Experience lookup: all records whose id is in the list. -/
def fetchByIds {α : Type} (tbl : List (Nat × α)) (ids : List Nat) : List (Nat × α) :=
  tbl.filter (fun p => ids.contains p.1)

/-- Lines 103-116 of json_automation.py: build the id-keyed map from the raw
batched lookup result, then walk the link-field ids in order, emitting an entry
for each id found and skipping ids with no record. -/
def compressExpFromRaw (raw : List (Nat × WorkFields)) (ids : List Nat) : List ExpObj :=
  ids.filterMap (fun i => (dlookLast raw i).map expOf)

/-- The snapshot compress_applicant_data builds (lines 71-141): the personal
and salary sections from the first linked record of each kind when it
resolves, and the experience array from the batched lookup walked in
link-field order. -/
def compressedSnapshot (b : Base) (af : AppFields) : Snapshot :=
  ⟨(match getFirstLinkedRecordId af.personalLink with
    | none => none
    | some pid => (tget b.personalTbl pid).map personalJsonOf),
   compressExpFromRaw (fetchByIds b.workTbl (getAllLinkedRecordIds af.workLink))
     (getAllLinkedRecordIds af.workLink),
   (match getFirstLinkedRecordId af.salaryLink with
    | none => none
    | some sid => (tget b.salaryTbl sid).map salaryJsonOf)⟩

/-- compress_applicant_data: resolve the linked children, build the snapshot,
write it to the Compressed JSON field; False when the applicant is absent. -/
def compress (b : Base) (t : String) : Base × Bool :=
  match findApplicant b t with
  | none => (b, false)
  | some (aid, af) =>
    ({ b with applicants :=
        (tupdate b.applicants aid
          (fun f => { f with compressedJson := .ok (compressedSnapshot b af) })) }, true)

/-- Update of a Personal Details record with the None-filtered field dict built
from the snapshot: present values overwrite, null or absent values keep the
stored field. -/
def updPersonalF (J : PersonalJson) (p : PersonalFields) : PersonalFields :=
  ⟨optOr J.name p.fullName, optOr J.email p.email,
   optOr J.location p.location, optOr J.linkedin p.linkedin⟩

/-- Creation of a Personal Details record from the None-filtered field dict. -/
def createPersonalF (J : PersonalJson) : PersonalFields :=
  ⟨J.name, J.email, J.location, J.linkedin⟩

/-- Update of a Salary Preferences record with the None-filtered field dict. -/
def updSalaryF (J : SalaryJson) (s : SalaryFields) : SalaryFields :=
  ⟨optOr J.preferred_rate s.preferredRate, optOr J.minimum_rate s.minimumRate,
   optOr J.currency s.currency, optOr J.availability_hrs_wk s.availability⟩

/-- Creation of a Salary Preferences record from the None-filtered field dict. -/
def createSalaryF (J : SalaryJson) : SalaryFields :=
  ⟨J.preferred_rate, J.minimum_rate, J.currency, J.availability_hrs_wk⟩

/-- Update of a Work Experience record with the None-filtered field dict built
from a snapshot entry (company and title are known present at the call sites). -/
def updWorkF (e : ExpObj) (w : WorkFields) : WorkFields :=
  ⟨optOr e.company w.company, optOr e.title w.title,
   optOr e.start_date w.startDate, optOr e.end_date w.endDate,
   e.technologies.getD w.technologies⟩

/-- Creation of a Work Experience record from the None-filtered field dict. -/
def createWorkF (e : ExpObj) : WorkFields :=
  ⟨e.company, e.title, e.start_date, e.end_date, e.technologies.getD []⟩

/-- link_child_to_applicant seen from the parent side: the applicant link field
gains the freshly created child id (Airtable links are bidirectional). -/
def pushLink (l : Option (List LinkItem)) (i : Nat) : Option (List LinkItem) :=
  some (l.getD [] ++ [.str i])

/-- The Personal section of decompress_applicant_data (lines 178-203): skip on
an empty dict, update in place when a record is linked, otherwise create and
link back. -/
def personalStep (b : Base) (aid : Nat) (af : AppFields) (S : Snapshot) : Base :=
  match S.personal with
  | none => b
  | some J =>
    match getFirstLinkedRecordId af.personalLink with
    | some pid => { b with personalTbl := tupdate b.personalTbl pid (updPersonalF J) }
    | none =>
      let nid := b.nextId
      { b with
        personalTbl := b.personalTbl ++ [(nid, createPersonalF J)],
        nextId := b.nextId + 1,
        applicants :=
          tupdate b.applicants aid
            (fun f => { f with personalLink := pushLink f.personalLink nid }) }

/-- The Salary section of decompress_applicant_data (lines 270-294). -/
def salaryStep (b : Base) (aid : Nat) (af : AppFields) (S : Snapshot) : Base :=
  match S.salary with
  | none => b
  | some J =>
    match getFirstLinkedRecordId af.salaryLink with
    | some sid => { b with salaryTbl := tupdate b.salaryTbl sid (updSalaryF J) }
    | none =>
      let nid := b.nextId
      { b with
        salaryTbl := b.salaryTbl ++ [(nid, createSalaryF J)],
        nextId := b.nextId + 1,
        applicants :=
          tupdate b.applicants aid
            (fun f => { f with salaryLink := pushLink f.salaryLink nid }) }

/-- The dict comprehension of lines 218-221: (company, title) to record id. -/
def buildExpMap (recs : List (Nat × WorkFields)) :
    List ((Option String × Option String) × Nat) :=
  recs.map (fun p => (wkey p.2, p.1))

/-- The upsert loop over the experience array (lines 225-257): skip entries
missing company or title, update the mapped record when the key matches,
otherwise create a fresh record and link it; accumulate processed ids. -/
def procExps (aid : Nat) (m : List ((Option String × Option String) × Nat)) :
    List ExpObj → Base → List Nat → Base × List Nat
  | [], b, P => (b, P)
  | e :: rest, b, P =>
    if e.company.isNone ∨ e.title.isNone then
      procExps aid m rest b P
    else
      match dlookLast m (ekey e) with
      | some rid =>
        procExps aid m rest
          { b with workTbl := tupdate b.workTbl rid (updWorkF e) } (rid :: P)
      | none =>
        let nid := b.nextId
        let b1 : Base :=
          { b with
            workTbl := b.workTbl ++ [(nid, createWorkF e)],
            nextId := b.nextId + 1,
            applicants :=
              tupdate b.applicants aid
                (fun f => { f with workLink := pushLink f.workLink nid }) }
        procExps aid m rest b1 (nid :: P)

/-- Keep only link items whose id is not being deleted. -/
def dropLinkIds (ids : List Nat) : List LinkItem → List LinkItem :=
  List.filter (fun it =>
    match it with
    | .str i => decide (¬ ids.contains i)
    | .obj i => decide (¬ ids.contains i)
    | .other => true)

/-- work_experience_table.batch_delete: the records disappear from the table
and, links being bidirectional, their ids disappear from link fields. -/
def deleteWorks (b : Base) (ids : List Nat) : Base :=
  { b with
    workTbl := tdeleteMany b.workTbl ids,
    applicants := b.applicants.map (fun p =>
      (p.1, { p.2 with workLink := p.2.workLink.map (dropLinkIds ids) })) }

/-- The Work Experience reconciliation of decompress_applicant_data
(lines 205-268): fetch the currently linked records, build the last-wins
(company, title) map, run the upsert loop, then batch-delete the linked ids
never marked processed. -/
def expStep (b : Base) (aid : Nat) (af : AppFields) (S : Snapshot) : Base :=
  let curIds := getAllLinkedRecordIds af.workLink
  let curRecs := fetchByIds b.workTbl curIds
  let m := buildExpMap curRecs
  let r := procExps aid m S.experience b []
  let toDel := curIds.filter (fun i => decide (¬ r.2.contains i))
  if toDel.isEmpty then r.1 else deleteWorks r.1 toDel

/-- decompress_applicant_data: False when the applicant is absent, False when
the snapshot is empty or malformed, otherwise the three reconciliation steps in
source order against the stale applicant record fetched at entry. -/
def decompress (b : Base) (t : String) : Base × Bool :=
  match findApplicant b t with
  | none => (b, false)
  | some (aid, af) =>
    match af.compressedJson with
    | .empty => (b, false)
    | .bad => (b, false)
    | .ok S =>
      let b1 := personalStep b aid af S
      let b2 := expStep b1 aid af S
      let b3 := salaryStep b2 aid af S
      (b3, true)

/-- The decompress branch of main.py (lines 79-88): a falsy result is reported
as a failure and the process exits with a non-zero code. -/
def mainDecompressExit (b : Base) (t : String) : Int :=
  if (decompress b t).2 then 0 else -1

/-! ## shortlist_automation.py -/

/-- TIER_1_COMPANIES from shortlist_automation.py. -/
def TIER1 : List String :=
  ["Google", "Meta", "OpenAI", "Microsoft", "Amazon", "Apple", "Netflix", "Tesla"]

/-- APPROVED_LOCATIONS from shortlist_automation.py.  The source holds them in
a Python set whose iteration order is unspecified; the model fixes the literal
order, which only affects which keyword is reported on a multi-match. -/
def APPROVED : List String := ["us", "canada", "uk", "germany", "india"]

/-- Gregorian leap-year test, as datetime validates dates. -/
def isLeapYear (y : Nat) : Bool :=
  (y % 4 == 0 && y % 100 != 0) || y % 400 == 0

/-- Days in a month of the proleptic Gregorian calendar. -/
def monthDays (y m : Nat) : Nat :=
  if m = 2 then (if isLeapYear y then 29 else 28)
  else if m = 4 ∨ m = 6 ∨ m = 9 ∨ m = 11 then 30
  else 31

/-- Days in the months of year y strictly before month m. -/
def daysBeforeMonth (y m : Nat) : Nat :=
  (List.range (m - 1)).foldl (fun a i => a + monthDays y (i + 1)) 0

/-- Proleptic Gregorian day number of a date, so that differences of day
numbers equal timedelta.days between the two midnights. -/
def dateOrd (y m d : Nat) : Nat :=
  365 * (y - 1) + (y - 1) / 4 - (y - 1) / 100 + (y - 1) / 400 + daysBeforeMonth y m + (d - 1)

/-- True when the string is one or more decimal digits. -/
def isDigitStr (s : String) : Bool :=
  s.length > 0 && s.toList.all Char.isDigit

/-- datetime.strptime with format %Y-%m-%d reduced to its day number: %Y is
exactly four digits with year at least 1, %m and %d are one or two digits, and
the datetime constructor validates month and day ranges; anything else raises,
which the model reports as none. -/
def parseDateOrd (s : String) : Option Nat :=
  match s.splitOn "-" with
  | [ys, ms, ds] =>
    if isDigitStr ys ∧ ys.length = 4 ∧ isDigitStr ms ∧ 1 ≤ ms.length ∧ ms.length ≤ 2
        ∧ isDigitStr ds ∧ 1 ≤ ds.length ∧ ds.length ≤ 2 then
      match ys.toNat?, ms.toNat?, ds.toNat? with
      | some y, some m, some d =>
        if 1 ≤ y ∧ 1 ≤ m ∧ m ≤ 12 ∧ 1 ≤ d ∧ d ≤ monthDays y m then
          some (dateOrd y m d)
        else none
      | _, _, _ => none
    else none
  | _ => none

/-- duration.days / 365.25 of the source, as exact rational arithmetic. -/
def yearsBetween (a b : Nat) : ℚ :=
  ((b : ℚ) - (a : ℚ)) / (365.25 : ℚ)

/-- Python str.lower modelled character-wise (the data compared here is
ASCII); computable by the kernel, unlike the position-based String.toLower. -/
def strLower (s : String) : String := ⟨s.data.map Char.toLower⟩

/-- Whether an entry sets the tier-1 flag: a truthy company that lowercases to
a tier-1 name (lines 49-52). -/
def tierHit (e : ExpObj) : Bool :=
  match e.company with
  | some c => c ≠ "" && TIER1.any (fun g => strLower g == strLower c)
  | none => false

/-- The contribution of one entry to the year total (lines 53-66): a truthy and
parseable start date, an end date that is taken as now when falsy and must
parse when truthy, and start not after end; otherwise the entry is skipped.
now is the day number of datetime.now(), whose time of day cannot change
either the comparison or timedelta.days against a midnight start. -/
def entryYears (now : Nat) (e : ExpObj) : Option ℚ :=
  match e.start_date with
  | none => none
  | some s =>
    if s = "" then none
    else
      match parseDateOrd s with
      | none => none
      | some os =>
        match e.end_date with
        | some es =>
          if es = "" then
            (if os > now then none else some (yearsBetween os now))
          else
            match parseDateOrd es with
            | none => none
            | some oe => if os > oe then none else some (yearsBetween os oe)
        | none => if os > now then none else some (yearsBetween os now)

/-- The accumulator loop of calculate_experience_years. -/
def calcAux (now : Nat) (acc : ℚ) (t1 : Bool) : List ExpObj → ℚ × Bool
  | [] => (acc, t1)
  | e :: rest =>
    let t1a := t1 || tierHit e
    match entryYears now e with
    | some d => calcAux now (acc + d) t1a rest
    | none => calcAux now acc t1a rest

/-- calculate_experience_years: total fractional years over the valid entries
and the tier-1 company flag. -/
def calcExperienceYears (now : Nat) (l : List ExpObj) : ℚ × Bool :=
  calcAux now 0 false l

/-- The experience criterion of shortlist_applicant (line 100): at least 4
total years or a tier-1 company. -/
def experienceCriterion (now : Nat) (l : List ExpObj) : Bool :=
  let r := calcExperienceYears now l
  decide (r.1 ≥ 4) || r.2

/-- The preferred_rate field of the salary section; an absent section is the
empty dict, whose get returns None. -/
def salPreferredRate : Option SalaryJson → Option ℚ
  | some s => s.preferred_rate
  | none => none

/-- The currency field of the salary section. -/
def salCurrency : Option SalaryJson → Option String
  | some s => s.currency
  | none => none

/-- The availability_hrs_wk field of the salary section. -/
def salAvailability : Option SalaryJson → Option ℚ
  | some s => s.availability_hrs_wk
  | none => none

/-- The compensation criterion of shortlist_applicant (lines 111-137): the
rate branch passes only with a present rate, currency exactly USD and rate at
most 100; the availability branch passes only with a present availability of
at least 20; the criterion is their conjunction. -/
def compensationCriterion (sal : Option SalaryJson) : Bool :=
  (match salPreferredRate sal, salCurrency sal with
   | some r, some c => c == "USD" && decide (r ≤ 100)
   | _, _ => false) &&
  (match salAvailability sal with
   | some a => decide (a ≥ 20)
   | none => false)

/-- Substring test on character lists, modelling the Python in operator. -/
def substrB (needle : List Char) : List Char → Bool
  | [] => needle.isEmpty
  | c :: rest => needle.isPrefixOf (c :: rest) || substrB needle rest

/-- The location field read from the personal section. -/
def personalLocation : Option PersonalJson → Option String
  | some p => p.location
  | none => none

/-- The location scan of shortlist_applicant (lines 144-152): first approved
keyword contained in the lowercased location, none when the location is falsy
or nothing matches. -/
def locationMatch (loc : Option String) : Option String :=
  match loc with
  | none => none
  | some s =>
    if s = "" then none
    else APPROVED.find? (fun kw => substrB kw.toList (strLower s).toList)

/-- Decimal rendering of the rationals interpolated into reason strings.  The
source formats floats; the exact digits never matter to the claims, only the
fixed prefixes around them. -/
def ratStr (q : ℚ) : String := toString q

/-- The two compensation reason parts (lines 115-136). -/
def compReasonParts (sal : Option SalaryJson) : List String :=
  let p1 :=
    match salPreferredRate sal, salCurrency sal with
    | some r, some c =>
      if c = "USD" then
        if r ≤ 100 then "Preferred Rate: $" ++ ratStr r ++ " USD/hour"
        else "Preferred Rate: $" ++ ratStr r ++ " USD/hour (FAILED - must be <= $100)"
      else "Preferred Rate: " ++ ratStr r ++ " " ++ c ++ "/hour (FAILED - only USD <= $100 accepted)"
    | _, _ => "Preferred Rate: Missing or invalid (FAILED)"
  let p2 :=
    match salAvailability sal with
    | some a =>
      if a ≥ 20 then "Availability: " ++ ratStr a ++ " hrs/week"
      else "Availability: " ++ ratStr a ++ " hrs/week (FAILED - must be >= 20)"
    | none => "Availability: Missing or invalid (FAILED)"
  [p1, p2]

/-- The experience reason string (lines 101-110). -/
def expReason (ty : ℚ) (t1 : Bool) (met : Bool) : String :=
  if met then
    if t1 then "Experience: " ++ ratStr ty ++ " years total (includes Tier-1 company)"
    else "Experience: " ++ ratStr ty ++ " years total"
  else
    "FAILED: Experience (" ++ ratStr ty ++ " years, Tier-1: " ++ (if t1 then "True" else "False")
      ++ ") - min 4 years OR Tier-1 required."

/-- The location reason string (lines 153-157). -/
def locReason (loc : Option String) (kw : Option String) : String :=
  let s := (loc.getD "")
  match kw with
  | some k => "Location: '" ++ s ++ "' (Approved: matched '" ++ k ++ "')"
  | none => "FAILED: Location ('" ++ s ++ "') - not in approved list."

/-- The overall decision of shortlist_applicant: is_shortlisted starts True and
each failed criterion clears it, so it is the conjunction of the three. -/
def shortlistDecision (now : Nat) (S : Snapshot) : Bool :=
  experienceCriterion now S.experience
    && compensationCriterion S.salary
    && (locationMatch (personalLocation S.personal)).isSome

/-- The text Airtable renders for the Applicant_ref link field in the lead
lookup formula: the comma-joined primary field values of the referenced
applicant records. -/
def leadRefText (b : Base) (l : LeadFields) : String :=
  String.intercalate ", "
    (l.applicantRef.filterMap (fun rid => (tget b.applicants rid).map (fun a => a.applicantId.getD "")))

/-- Result of shortlist_applicant: the store, the Python return value (None
when the function falls off the end), and the score_reasons audit list the
source logs. -/
structure SRes where
  base : Base
  ret : Option Bool
  reasons : List String
deriving DecidableEq, Repr

/-- shortlist_applicant: NotFound, Incomplete Data and JSON Error failures,
then the three criteria, the status write, and on success the lead upsert
keyed by the Applicant_ref formula; a not-shortlisted evaluation falls off the
end of the function and returns None. -/
def shortlist (now : Nat) (b : Base) (t : String) : SRes :=
  match findApplicant b t with
  | none => ⟨b, some false, []⟩
  | some (aid, af) =>
    match af.compressedJson with
    | .empty =>
      ⟨{ b with applicants :=
          tupdate b.applicants aid (fun f => { f with shortlistStatus := some "Incomplete Data" }) },
       some false, []⟩
    | .bad =>
      ⟨{ b with applicants :=
          tupdate b.applicants aid (fun f => { f with shortlistStatus := some "JSON Error" }) },
       some false, []⟩
    | .ok S =>
      let r := calcExperienceYears now S.experience
      let expMet := decide (r.1 ≥ 4) || r.2
      let r1 := expReason r.1 r.2 expMet
      let compMet := compensationCriterion S.salary
      let r2 :=
        if compMet then "Compensation: " ++ String.intercalate ", " (compReasonParts S.salary)
        else "FAILED: Compensation - " ++ String.intercalate ", " (compReasonParts S.salary)
      let loc := personalLocation S.personal
      let kw := locationMatch loc
      let r3 := locReason loc kw
      let reasons := [r1, r2, r3]
      let isSh := expMet && compMet && kw.isSome
      let newStatus := if isSh then "Shortlisted" else "Not Shortlisted"
      let b1 : Base :=
        { b with applicants :=
            tupdate b.applicants aid (fun f => { f with shortlistStatus := some newStatus }) }
      if isSh then
        let primary := af.applicantId.getD "None"
        let fields : LeadFields :=
          ⟨[aid], af.compressedJson, String.intercalate "; " reasons⟩
        match b1.leadsTbl.find? (fun p => decide (leadRefText b1 p.2 = primary)) with
        | some (lid, _) =>
          ⟨{ b1 with leadsTbl := tupdate b1.leadsTbl lid (fun _ => fields) }, some true, reasons⟩
        | none =>
          ⟨{ b1 with leadsTbl := b1.leadsTbl ++ [(b1.nextId, fields)], nextId := b1.nextId + 1 },
           some true, reasons⟩
      else ⟨b1, none, reasons⟩

/-- Python truthiness of the tri-valued return. -/
def truthy : Option Bool → Bool
  | none => false
  | some v => v

/-- The shortlist step of the all action in main.py (lines 67-72): a falsy
return is a failure and the process exits -1 at once. -/
def mainShortlistExit (now : Nat) (b : Base) (t : String) : Int :=
  if truthy (shortlist now b t).ret then 0 else -1

/-! ## llm_automation.py -/

/-- Outcome of one chat-completion call: content, the distinguished APIError,
or any other exception. -/
inductive LLMOutcome where
  | ok (content : String)
  | apiErr
  | otherErr
deriving DecidableEq, Repr

/-- Placeholder for datetime.min, the value both timestamps get in the except
branch; only its comparison with itself is ever exercised there. -/
def dtMinQ : ℚ := 0

/-- Lines 117-128: the try block parses Last Modified then LLM Last Evaluated;
a parse failure anywhere in it leaves both at datetime.min.  The external
datetime.fromisoformat is modelled by the supplied pts function from timestamp
text to a comparable value. -/
def parseBothTimes (pts : String → Option ℚ) (lm lle : Option String) :
    Option ℚ × Option ℚ :=
  match lm with
  | some s =>
    match pts s with
    | none => (some dtMinQ, some dtMinQ)
    | some d1 =>
      match lle with
      | none => (some d1, none)
      | some s2 =>
        match pts s2 with
        | none => (some dtMinQ, some dtMinQ)
        | some d2 => (some d1, some d2)
  | none =>
    match lle with
    | none => (none, none)
    | some s2 =>
      match pts s2 with
      | none => (some dtMinQ, some dtMinQ)
      | some d2 => (none, some d2)

/-- Line 130: skip when both datetimes are truthy (datetime objects always
are, None is not) and the evaluation timestamp is at least the snapshot one. -/
def skipLLM (pts : String → Option ℚ) (lm lle : Option String) : Bool :=
  match parseBothTimes pts lm lle with
  | (some dc, some de) => decide (de ≥ dc)
  | _ => false

/-- The retry loop of lines 151-180 on explicit fuel (the loop makes at most
maxR calls, so fuel maxR never runs out while retries < maxR): returns the
response content if any, the number of calls made, and the sleeps performed.
Success breaks out; APIError increments retries and, with attempts left,
sleeps the current delay and doubles it; any other exception returns False at
once; exhausting retries returns False. -/
def llmLoopAux (llm : Nat → LLMOutcome) (maxR : Nat) :
    Nat → Nat → ℚ → Option String × Nat × List ℚ
  | 0, _, _ => (none, 0, [])
  | fuel + 1, retries, delay =>
    if retries < maxR then
      match llm retries with
      | .ok c => (some c, 1, [])
      | .otherErr => (none, 1, [])
      | .apiErr =>
        if retries + 1 < maxR then
          let r := llmLoopAux llm maxR fuel (retries + 1) (2 * delay)
          (r.1, r.2.1 + 1, delay :: r.2.2)
        else (none, 1, [])
    else (none, 0, [])

/-- The whole retry loop started at retries = 0 with the initial delay. -/
def llmLoop (llm : Nat → LLMOutcome) (maxR : Nat) (d0 : ℚ) : Option String × Nat × List ℚ :=
  llmLoopAux llm maxR maxR 0 d0

/-- Parsed structured response (parse_llm_response). -/
structure LLMParsed where
  summary : String
  score : Option Int
  issues : String
  followUps : String
deriving DecidableEq, Repr

/-- State of the line scanner of parse_llm_response. -/
structure PState where
  summary : String
  score : Option Int
  issues : String
  fups : List String
  capS : Bool
  capF : Bool
deriving DecidableEq, Repr

/-- One line of the parse_llm_response scanner (lines 62-89). -/
def parseLine (st : PState) (line : String) : PState :=
  let low := strLower line
  if "summary:".isPrefixOf low then
    { st with summary := (line.drop 8).trim, capS := true, capF := false }
  else if "score:".isPrefixOf low then
    { st with score := ((line.drop 6).trim).toInt?, capS := false, capF := false }
  else if "issues:".isPrefixOf low then
    { st with issues := (line.drop 7).trim, capS := false, capF := false }
  else if "follow-ups:".isPrefixOf low then
    { st with capF := true, capS := false }
  else if st.capS then
    { st with summary := st.summary ++ " " ++ line.trim }
  else if st.capF && "•".isPrefixOf line then
    { st with fups := st.fups ++ [line.trim] }
  else if st.capF then
    { st with capF := false }
  else st

/-- parse_llm_response: strip and drop blank lines, scan, assemble. -/
def parseLLMResponse (txt : String) : LLMParsed :=
  let lines := ((txt.splitOn "\n").map (fun l => l.trim)).filter (fun l => l ≠ "")
  let st := lines.foldl parseLine ⟨"", none, "None", [], false, false⟩
  ⟨st.summary.trim, st.score, st.issues.trim, (String.intercalate "\n" st.fups).trim⟩

/-- Result of evaluate_applicant_with_llm: the store, the boolean return, the
number of LLM calls issued and the backoff sleeps performed. -/
structure EvalRes where
  base : Base
  ok : Bool
  calls : Nat
  sleeps : List ℚ
deriving DecidableEq, Repr

/-- evaluate_applicant_with_llm: NotFound and missing-snapshot failures, the
staleness skip, the retry loop, and on content the parse and field write with
a fresh evaluation timestamp.  pts models datetime.fromisoformat (after the
Z replacement), llm the provider call per attempt index, maxR and d0 the
configurable retry cap and initial backoff delay, nowS datetime.now. -/
def evaluate (pts : String → Option ℚ) (llm : Nat → LLMOutcome) (maxR : Nat) (d0 : ℚ)
    (nowS : String) (b : Base) (t : String) : EvalRes :=
  match findApplicant b t with
  | none => ⟨b, false, 0, []⟩
  | some (aid, af) =>
    if af.compressedJson = .empty then ⟨b, false, 0, []⟩
    else if skipLLM pts af.lastModified af.llmLastEvaluated then ⟨b, true, 0, []⟩
    else
      let r := llmLoop llm maxR d0
      match r.1 with
      | none => ⟨b, false, r.2.1, r.2.2⟩
      | some c =>
        let content := c.trim
        if content = "" then ⟨b, false, r.2.1, r.2.2⟩
        else
          let p := parseLLMResponse content
          ⟨{ b with applicants := tupdate b.applicants aid (fun f =>
               { f with llmSummary := some p.summary, llmScore := p.score,
                        llmFollowUps := some p.followUps,
                        llmLastEvaluated := some (nowS ++ "Z") }) },
           true, r.2.1, r.2.2⟩

/-- The geometric backoff schedule: n sleeps starting at d0, each double the
previous. -/
def geomList (d0 : ℚ) : Nat → List ℚ
  | 0 => []
  | n + 1 => d0 :: geomList (2 * d0) n

/-! ## Well-formedness of the store and observables -/

/-- True for the raw-id link item form, the only one Airtable reads back. -/
def linkOkB : LinkItem → Bool
  | .str _ => true
  | _ => false

/-- Store well-formedness, all of it guaranteed by Airtable itself: record ids
are unique per table and below the fresh-id counter, link fields hold raw id
strings without duplicates, and linked ids are below the counter. -/
def WF (b : Base) : Prop :=
  (b.applicants.map Prod.fst).Nodup ∧
  (b.personalTbl.map Prod.fst).Nodup ∧
  (b.workTbl.map Prod.fst).Nodup ∧
  (b.salaryTbl.map Prod.fst).Nodup ∧
  (b.leadsTbl.map Prod.fst).Nodup ∧
  (∀ i ∈ b.personalTbl.map Prod.fst, i < b.nextId) ∧
  (∀ i ∈ b.workTbl.map Prod.fst, i < b.nextId) ∧
  (∀ i ∈ b.salaryTbl.map Prod.fst, i < b.nextId) ∧
  (∀ p ∈ b.applicants,
    (∀ it ∈ p.2.personalLink.getD [], linkOkB it = true) ∧
    (∀ it ∈ p.2.workLink.getD [], linkOkB it = true) ∧
    (∀ it ∈ p.2.salaryLink.getD [], linkOkB it = true) ∧
    (getAllLinkedRecordIds p.2.workLink).Nodup ∧
    (∀ i ∈ getAllLinkedRecordIds p.2.workLink, i < b.nextId) ∧
    (∀ i ∈ getAllLinkedRecordIds p.2.personalLink, i < b.nextId) ∧
    (∀ i ∈ getAllLinkedRecordIds p.2.salaryLink, i < b.nextId))

/-- The Work Experience ids the applicant record with the given internal id
currently links. -/
def appWorkIds (b : Base) (aid : Nat) : List Nat :=
  match tget b.applicants aid with
  | some g => getAllLinkedRecordIds g.workLink
  | none => []

/-! ## Concrete stores and stubs used to instantiate the theorems -/

/-- An applicant record with id APP1 and no links or derived fields. -/
def afBlank : AppFields :=
  ⟨some "APP1", none, none, none, .empty, none, none, none, none, none, none⟩

/-- A store violating no Airtable invariant but holding two linked Work
Experience records with the same (company, title) pair and one with no Title. -/
def bDup : Base :=
  ⟨[(10, { afBlank with workLink := some [.str 1, .str 2, .str 3] })],
   [],
   [(1, ⟨some "A", some "T", none, none, []⟩),
    (2, ⟨some "A", some "T", some "2020-01-01", none, []⟩),
    (3, ⟨some "B", none, none, none, []⟩)],
   [], [], 20⟩

/-- A well-formed store whose linked children all carry Company and Title and
pairwise distinct (company, title) pairs. -/
def bGood : Base :=
  ⟨[(10, { afBlank with
            workLink := some [.str 1, .str 2],
            personalLink := some [.str 5],
            salaryLink := some [.str 6] })],
   [(5, ⟨some "N", some "n@x.io", some "San Francisco, US", none⟩)],
   [(1, ⟨some "A", some "T", some "2020-01-01", none, ["py"]⟩),
    (2, ⟨some "B", some "U", none, none, []⟩)],
   [(6, ⟨some 80, some 60, some "USD", some 25⟩)],
   [], 20⟩

/-- A snapshot whose experience array has an entry with no title and a
duplicated (company, title) key. -/
def snapDup : Snapshot :=
  ⟨none,
   [⟨some "A", none, none, none, none⟩,
    ⟨some "B", some "T1", some "2020-01-01", none, none⟩,
    ⟨some "C", some "T2", none, none, none⟩,
    ⟨some "C", some "T2", none, none, none⟩],
   none⟩

/-- A store holding that snapshot over two linked records that share a
(company, title) pair. -/
def bRec : Base :=
  ⟨[(10, { afBlank with workLink := some [.str 1, .str 2], compressedJson := .ok snapDup })],
   [],
   [(1, ⟨some "B", some "T1", none, none, []⟩),
    (2, ⟨some "B", some "T1", some "x", none, []⟩)],
   [], [], 20⟩

/-- A clean snapshot: distinct keyed entries, company and title present. -/
def snapClean : Snapshot :=
  ⟨none,
   [⟨some "B", some "U", some "2020-01-01", none, some ["go"]⟩,
    ⟨some "New", some "Co", none, none, none⟩],
   none⟩

/-- A well-formed store holding the clean snapshot, one entry matching the
single linked record and one entry new. -/
def bCleanSnap : Base :=
  ⟨[(10, { afBlank with workLink := some [.str 1], compressedJson := .ok snapClean })],
   [],
   [(1, ⟨some "B", some "U", none, none, []⟩)],
   [], [], 20⟩

/-- A store with one applicant whose snapshot field is empty; APP2 is absent. -/
def bEmptyJson : Base := ⟨[(10, afBlank)], [], [], [], [], 20⟩

/-- A snapshot whose salary section asks 150 USD per hour. -/
def snapRate150 : Snapshot :=
  ⟨some ⟨some "N", none, some "San Francisco, US", none⟩,
   [],
   some ⟨some 150, some 100, some "USD", some 25⟩⟩

/-- A store holding the 150 USD snapshot. -/
def bRate150 : Base :=
  ⟨[(10, { afBlank with compressedJson := .ok snapRate150 })], [], [], [], [], 20⟩

/-- A store whose applicant has a parseable snapshot and both timestamps. -/
def bStale : Base :=
  ⟨[(10, { afBlank with
            compressedJson := .ok snapClean,
            lastModified := some "T1", llmLastEvaluated := some "T2" })],
   [], [], [], [], 20⟩

/-- A store whose applicant has an unparseable Last Modified timestamp. -/
def bBadStamp : Base :=
  ⟨[(10, { afBlank with
            compressedJson := .ok snapClean,
            lastModified := some "BAD", llmLastEvaluated := some "T2" })],
   [], [], [], [], 20⟩

/-- A store whose applicant is fresh: evaluated strictly before the snapshot
was last modified, so the staleness check does not skip. -/
def bFresh : Base :=
  ⟨[(10, { afBlank with
            compressedJson := .ok snapClean,
            lastModified := some "T2", llmLastEvaluated := some "T1" })],
   [], [], [], [], 20⟩

/-- A concrete stand-in for datetime.fromisoformat: parses two known stamps. -/
def pts0 : String → Option ℚ :=
  fun s => if s = "T1" then some 1 else if s = "T2" then some 2 else none

/-- A provider that raises the distinguished API error on every attempt. -/
def llmAllApi : Nat → LLMOutcome := fun _ => .apiErr

/-- A provider that raises an unexpected error on the first attempt. -/
def llmOther0 : Nat → LLMOutcome := fun _ => .otherErr

/-- Everything the Work Experience upsert loop guarantees about its result
state bR and processed set PR, relative to the entry state b, when every
snapshot entry carries company and title with pairwise distinct keys: frames,
freshness, the created records ext, membership of the processed set, and
preservation of the reconciliation map targets. -/
structure ProcOut (aid : Nat) (m : List ((Option String × Option String) × Nat))
    (curIds0 : List Nat) (E : List ExpObj) (b : Base) (P : List Nat)
    (bR : Base) (PR : List Nat) (ext : List (Nat × ExpObj)) : Prop where
  hpt : bR.personalTbl = b.personalTbl
  hst : bR.salaryTbl = b.salaryTbl
  hlt : bR.leadsTbl = b.leadsTbl
  hnx : b.nextId ≤ bR.nextId
  hndW2 : (bR.workTbl.map Prod.fst).Nodup
  hndA2 : (bR.applicants.map Prod.fst).Nodup
  hbW2 : ∀ i ∈ bR.workTbl.map Prod.fst, i < bR.nextId
  hother : ∀ j, j ≠ aid → tget bR.applicants j = tget b.applicants j
  hgR : ∀ g, tget b.applicants aid = some g → ∃ gR,
      tget bR.applicants aid = some gR ∧
      gR.applicantId = g.applicantId ∧ gR.personalLink = g.personalLink ∧
      gR.salaryLink = g.salaryLink ∧ gR.compressedJson = g.compressedJson ∧
      getAllLinkedRecordIds gR.workLink =
        getAllLinkedRecordIds g.workLink ++ ext.map Prod.fst
  hsub : (ext.map Prod.snd).Sublist E
  hextnd : (ext.map Prod.fst).Nodup
  hextb : ∀ x ∈ ext.map Prod.fst, b.nextId ≤ x ∧ x < bR.nextId
  hextq : ∀ q ∈ ext, tget bR.workTbl q.1 = some (createWorkF q.2) ∧
      dlookLast m (ekey q.2) = none ∧ q.1 ∈ PR
  hPR : ∀ x, x ∈ PR ↔
      x ∈ P ∨ (∃ e ∈ E, dlookLast m (ekey e) = some x) ∨ x ∈ ext.map Prod.fst
  hold : ∀ i, i < b.nextId → (∀ e ∈ E, dlookLast m (ekey e) ≠ some i) →
      tget bR.workTbl i = tget b.workTbl i
  hent : ∀ e ∈ E, ∃ i, i ∈ PR ∧ (dlookLast m (ekey e) = some i ∨ (i, e) ∈ ext) ∧
      ∃ r, tget bR.workTbl i = some r ∧ wkey r = ekey e ∧ updWorkF e r = r
  hmR : ∀ k i, dlookLast m k = some i → i ∈ curIds0 ∧ i < bR.nextId ∧
      ∃ r, tget bR.workTbl i = some r ∧ wkey r = k

end Mercor

namespace Mercor

/-! ## Helper lemmas on the store operations -/

theorem tget_cons {α : Type} (p : Nat × α) (rest : List (Nat × α)) (i : Nat) :
    tget (p :: rest) i = if p.1 = i then some p.2 else tget rest i := by
  by_cases hp : p.1 = i
  · rw [if_pos hp]
    unfold tget
    rw [List.find?_cons_of_pos _ (by simpa using hp)]
    rfl
  · rw [if_neg hp]
    unfold tget
    rw [List.find?_cons_of_neg _ (by simpa using hp)]

theorem tupdate_cons {α : Type} (p : Nat × α) (rest : List (Nat × α)) (i : Nat) (f : α → α) :
    tupdate (p :: rest) i f = (if p.1 = i then (p.1, f p.2) else p) :: tupdate rest i f := rfl

theorem tdeleteMany_cons {α : Type} (p : Nat × α) (rest : List (Nat × α)) (ids : List Nat) :
    tdeleteMany (p :: rest) ids =
      if ids.contains p.1 then tdeleteMany rest ids else p :: tdeleteMany rest ids := by
  by_cases hp : ids.contains p.1
  · simp [tdeleteMany, List.filter_cons, hp]
  · simp [tdeleteMany, List.filter_cons, hp]

theorem mem_of_tget_eq_some {α : Type} {tbl : List (Nat × α)} {i : Nat} {r : α}
    (h : tget tbl i = some r) : (i, r) ∈ tbl := by
  induction tbl with
  | nil => simp [tget] at h
  | cons p rest ih =>
    rw [tget_cons] at h
    by_cases hp : p.1 = i
    · rw [if_pos hp] at h
      have : (i, r) = p := by
        cases p
        simp_all
      rw [this]
      exact List.mem_cons_self _ _
    · rw [if_neg hp] at h
      exact List.mem_cons_of_mem _ (ih h)

theorem tget_eq_some_of_mem {α : Type} {tbl : List (Nat × α)} {i : Nat} {r : α}
    (hnd : (tbl.map Prod.fst).Nodup) (hm : (i, r) ∈ tbl) : tget tbl i = some r := by
  induction tbl with
  | nil => simp at hm
  | cons p rest ih =>
    simp only [List.map_cons, List.nodup_cons] at hnd
    rw [tget_cons]
    rcases List.mem_cons.mp hm with h | h
    · rw [← h]
      simp
    · have hne : p.1 ≠ i := by
        intro he
        exact hnd.1 (by simpa [he] using List.mem_map_of_mem Prod.fst h)
      rw [if_neg hne]
      exact ih hnd.2 h

theorem tget_eq_none_iff {α : Type} {tbl : List (Nat × α)} {i : Nat} :
    tget tbl i = none ↔ i ∉ tbl.map Prod.fst := by
  induction tbl with
  | nil => simp [tget]
  | cons p rest ih =>
    rw [tget_cons]
    by_cases hp : p.1 = i
    · simp [hp]
    · rw [if_neg hp, ih]
      simp only [List.map_cons, List.mem_cons]
      constructor
      · rintro h (he | hm)
        · exact hp he.symm
        · exact h hm
      · intro h hm
        exact h (Or.inr hm)

theorem tget_isSome_iff {α : Type} {tbl : List (Nat × α)} {i : Nat} :
    (tget tbl i).isSome = true ↔ i ∈ tbl.map Prod.fst := by
  rcases h : tget tbl i with _ | r
  · rw [tget_eq_none_iff] at h
    simp [h]
  · have := mem_of_tget_eq_some h
    simp only [Option.isSome_some, true_iff]
    exact List.mem_map_of_mem Prod.fst this

theorem tget_tupdate_self {α : Type} {tbl : List (Nat × α)} {i : Nat} {r : α} (f : α → α)
    (h : tget tbl i = some r) : tget (tupdate tbl i f) i = some (f r) := by
  induction tbl with
  | nil => simp [tget] at h
  | cons p rest ih =>
    rw [tget_cons] at h
    rw [tupdate_cons]
    by_cases hp : p.1 = i
    · rw [if_pos hp] at h
      injection h with h2
      rw [if_pos hp, tget_cons]
      simp [hp, h2]
    · rw [if_neg hp] at h
      rw [if_neg hp, tget_cons, if_neg hp]
      exact ih h

theorem tget_tupdate_ne {α : Type} {tbl : List (Nat × α)} {i j : Nat} (f : α → α)
    (h : j ≠ i) : tget (tupdate tbl i f) j = tget tbl j := by
  induction tbl with
  | nil => simp [tget, tupdate]
  | cons p rest ih =>
    rw [tupdate_cons]
    by_cases hp : p.1 = i
    · have hne : p.1 ≠ j := by
        rw [hp]
        exact fun he => h he.symm
      rw [if_pos hp, tget_cons, tget_cons]
      simp only [if_neg hne]
      exact ih
    · rw [if_neg hp, tget_cons, tget_cons]
      by_cases hj : p.1 = j
      · rw [if_pos hj, if_pos hj]
      · rw [if_neg hj, if_neg hj]
        exact ih

theorem tupdate_eq_self {α : Type} {tbl : List (Nat × α)} {i : Nat} {f : α → α}
    (h : ∀ p ∈ tbl, p.1 = i → f p.2 = p.2) : tupdate tbl i f = tbl := by
  induction tbl with
  | nil => rfl
  | cons p rest ih =>
    rw [tupdate_cons, ih (fun q hq => h q (List.mem_cons_of_mem p hq))]
    by_cases hp : p.1 = i
    · rw [if_pos hp, h p (List.mem_cons_self p rest) hp]
    · rw [if_neg hp]

theorem tupdate_map_fst {α : Type} (tbl : List (Nat × α)) (i : Nat) (f : α → α) :
    (tupdate tbl i f).map Prod.fst = tbl.map Prod.fst := by
  induction tbl with
  | nil => rfl
  | cons p rest ih =>
    rw [tupdate_cons]
    by_cases hp : p.1 = i
    · simp [hp, ih]
    · simp [hp, ih]

theorem tget_append {α : Type} (tbl₂ : List (Nat × α)) {tbl : List (Nat × α)} {i : Nat} :
    tget (tbl ++ tbl₂) i = (tget tbl i).orElse (fun _ => tget tbl₂ i) := by
  induction tbl with
  | nil => simp [tget]
  | cons p rest ih =>
    rw [List.cons_append, tget_cons, tget_cons]
    by_cases hp : p.1 = i
    · simp [hp]
    · simpa [hp] using ih

theorem tget_append_left {α : Type} (tbl₂ : List (Nat × α)) {tbl : List (Nat × α)} {i : Nat}
    {r : α} (h : tget tbl i = some r) : tget (tbl ++ tbl₂) i = some r := by
  rw [tget_append, h]
  rfl

theorem tget_append_right {α : Type} (tbl₂ : List (Nat × α)) {tbl : List (Nat × α)} {i : Nat}
    (h : tget tbl i = none) : tget (tbl ++ tbl₂) i = tget tbl₂ i := by
  rw [tget_append, h]
  rfl

theorem tget_tdeleteMany_not_mem {α : Type} {tbl : List (Nat × α)} {ids : List Nat} {i : Nat}
    (h : ¬ ids.contains i) : tget (tdeleteMany tbl ids) i = tget tbl i := by
  induction tbl with
  | nil => rfl
  | cons p rest ih =>
    rw [tdeleteMany_cons]
    by_cases hpd : ids.contains p.1
    · have hp : p.1 ≠ i := fun he => h (he ▸ hpd)
      rw [if_pos hpd, tget_cons, if_neg hp]
      exact ih
    · rw [if_neg hpd, tget_cons, tget_cons]
      by_cases hp : p.1 = i
      · rw [if_pos hp, if_pos hp]
      · rw [if_neg hp, if_neg hp]
        exact ih

theorem tget_tdeleteMany_mem {α : Type} {tbl : List (Nat × α)} {ids : List Nat} {i : Nat}
    (h : ids.contains i) : tget (tdeleteMany tbl ids) i = none := by
  induction tbl with
  | nil => rfl
  | cons p rest ih =>
    rw [tdeleteMany_cons]
    by_cases hpd : ids.contains p.1
    · rw [if_pos hpd]
      exact ih
    · have hp : p.1 ≠ i := fun he => hpd (he ▸ h)
      rw [if_neg hpd, tget_cons, if_neg hp]
      exact ih

theorem tdeleteMany_eq_self {α : Type} {tbl : List (Nat × α)} {ids : List Nat}
    (h : ∀ j ∈ ids, j ∉ tbl.map Prod.fst) : tdeleteMany tbl ids = tbl := by
  induction tbl with
  | nil => rfl
  | cons p rest ih =>
    have hp : ¬ ids.contains p.1 := by
      intro hc
      exact h p.1 (List.elem_iff.mp hc) (by simp)
    rw [tdeleteMany_cons, if_neg hp,
      ih (fun j hj hmem => h j hj (List.mem_cons_of_mem _ hmem))]

theorem tdeleteMany_map_fst_sublist {α : Type} (tbl : List (Nat × α)) (ids : List Nat) :
    ((tdeleteMany tbl ids).map Prod.fst).Sublist (tbl.map Prod.fst) :=
  List.Sublist.map Prod.fst (List.filter_sublist tbl)

theorem dlookLast_mem {α β : Type} [DecidableEq α] {m : List (α × β)} {k : α} {v : β}
    (h : dlookLast m k = some v) : (k, v) ∈ m := by
  simp only [dlookLast, Option.map_eq_some'] at h
  obtain ⟨p, hp, hv⟩ := h
  have hmem := List.mem_of_find?_eq_some hp
  have hk := List.find?_some hp
  simp only [decide_eq_true_eq] at hk
  rw [List.mem_reverse] at hmem
  have hpe : p = (k, v) := by
    cases p
    simp_all
  rwa [hpe] at hmem

theorem dlookLast_eq_some {α β : Type} [DecidableEq α] {m : List (α × β)} {k : α} {v : β}
    (hex : (k, v) ∈ m) (huniq : ∀ p ∈ m, p.1 = k → p.2 = v) : dlookLast m k = some v := by
  simp only [dlookLast]
  have hex2 : (k, v) ∈ m.reverse := List.mem_reverse.mpr hex
  rcases hf : m.reverse.find? (fun p => decide (p.1 = k)) with _ | p
  · rw [List.find?_eq_none] at hf
    have hc := hf (k, v) hex2
    simp at hc
  · have hk := List.find?_some hf
    simp only [decide_eq_true_eq] at hk
    have hmem := List.mem_of_find?_eq_some hf
    rw [List.mem_reverse] at hmem
    rw [hf]
    simp [huniq p hmem hk]

theorem dlookLast_eq_none_iff {α β : Type} [DecidableEq α] {m : List (α × β)} {k : α} :
    dlookLast m k = none ↔ ∀ p ∈ m, p.1 ≠ k := by
  simp only [dlookLast, Option.map_eq_none', List.find?_eq_none, decide_eq_true_eq]
  constructor
  · intro h p hp
    exact h p (List.mem_reverse.mpr hp)
  · intro h p hp
    exact h p (List.mem_reverse.mp hp)

theorem assoc_val_unique {α β : Type} [DecidableEq α] {m : List (α × β)} {k : α} {v : β}
    (hnd : (m.map Prod.fst).Nodup) (h1 : (k, v) ∈ m) :
    ∀ p ∈ m, p.1 = k → p.2 = v := by
  intro p hp hk
  have hpe : p = (k, v) := by
    apply List.inj_on_of_nodup_map hnd hp h1
    simpa using hk
  rw [hpe]

/-! ## Field update algebra -/

theorem optOr_self {α : Type} (a : Option α) : optOr a a = a := by
  cases a <;> rfl

theorem optOr_idem {α : Type} (a b : Option α) : optOr a (optOr a b) = optOr a b := by
  cases a <;> rfl

theorem optOr_of_isSome {α : Type} {a : Option α} (b : Option α) (h : a.isSome = true) :
    optOr a b = a := by
  cases a
  · simp at h
  · rfl

theorem updWorkF_expOf (w : WorkFields) : updWorkF (expOf w) w = w := by
  cases w
  simp [updWorkF, expOf, optOr_self]

theorem updWorkF_idem (e : ExpObj) (w : WorkFields) :
    updWorkF e (updWorkF e w) = updWorkF e w := by
  cases w
  cases e with
  | mk c t sd ed te =>
    simp only [updWorkF, optOr_idem]
    cases te <;> rfl

theorem updWorkF_createWorkF (e : ExpObj) : updWorkF e (createWorkF e) = createWorkF e := by
  cases e with
  | mk c t sd ed te =>
    simp only [updWorkF, createWorkF, optOr_self]
    cases te <;> rfl

theorem wkey_updWorkF {e : ExpObj} (w : WorkFields) (hc : e.company.isSome = true)
    (ht : e.title.isSome = true) : wkey (updWorkF e w) = ekey e := by
  simp [wkey, updWorkF, ekey, optOr_of_isSome _ hc, optOr_of_isSome _ ht]

theorem wkey_createWorkF (e : ExpObj) : wkey (createWorkF e) = ekey e := rfl

theorem updPersonalF_personalJsonOf (p : PersonalFields) :
    updPersonalF (personalJsonOf p) p = p := by
  cases p
  simp [updPersonalF, personalJsonOf, optOr_self]

theorem updPersonalF_idem (J : PersonalJson) (p : PersonalFields) :
    updPersonalF J (updPersonalF J p) = updPersonalF J p := by
  cases p
  simp [updPersonalF, optOr_idem]

theorem updPersonalF_createPersonalF (J : PersonalJson) :
    updPersonalF J (createPersonalF J) = createPersonalF J := by
  cases J
  simp [updPersonalF, createPersonalF, optOr_self]

theorem updSalaryF_salaryJsonOf (v : SalaryFields) :
    updSalaryF (salaryJsonOf v) v = v := by
  cases v
  simp [updSalaryF, salaryJsonOf, optOr_self]

theorem updSalaryF_idem (J : SalaryJson) (v : SalaryFields) :
    updSalaryF J (updSalaryF J v) = updSalaryF J v := by
  cases v
  simp [updSalaryF, optOr_idem]

theorem updSalaryF_createSalaryF (J : SalaryJson) :
    updSalaryF J (createSalaryF J) = createSalaryF J := by
  cases J
  simp [updSalaryF, createSalaryF, optOr_self]

/-! ## Link field lemmas -/

/-- The id a link item contributes to get_all_linked_record_ids. -/
theorem getAll_some_eq (l : List LinkItem) :
    getAllLinkedRecordIds (some l) = l.filterMap (fun it =>
      match it with
      | .str i => some i
      | .obj i => some i
      | .other => none) := rfl

theorem getAll_pushLink (l : Option (List LinkItem)) (n : Nat) :
    getAllLinkedRecordIds (pushLink l n) = getAllLinkedRecordIds l ++ [n] := by
  cases l with
  | none => rfl
  | some l0 =>
    simp [pushLink, getAll_some_eq, List.filterMap_append]

theorem getAll_dropLinkIds (ids : List Nat) (l : List LinkItem) :
    getAllLinkedRecordIds (some (dropLinkIds ids l)) =
      (getAllLinkedRecordIds (some l)).filter (fun i => decide (¬ ids.contains i)) := by
  induction l with
  | nil => rfl
  | cons it rest ih =>
    cases it with
    | str i =>
      by_cases hc : i ∈ ids
      · simp only [dropLinkIds, List.filter_cons, hc, List.elem_iff, getAll_some_eq,
          List.filterMap_cons] at ih ⊢
        simp only [decide_not] at ih ⊢
        simp [hc, ih]
      · simp only [dropLinkIds, List.filter_cons, hc, List.elem_iff, getAll_some_eq,
          List.filterMap_cons] at ih ⊢
        simp only [decide_not] at ih ⊢
        simp [hc, ih]
    | obj i =>
      by_cases hc : i ∈ ids
      · simp only [dropLinkIds, List.filter_cons, hc, List.elem_iff, getAll_some_eq,
          List.filterMap_cons] at ih ⊢
        simp only [decide_not] at ih ⊢
        simp [hc, ih]
      · simp only [dropLinkIds, List.filter_cons, hc, List.elem_iff, getAll_some_eq,
          List.filterMap_cons] at ih ⊢
        simp only [decide_not] at ih ⊢
        simp [hc, ih]
    | other =>
      simp only [dropLinkIds, List.filter_cons, getAll_some_eq, List.filterMap_cons,
        List.elem_iff] at ih ⊢
      simp only [decide_not] at ih ⊢
      simp [ih]

theorem getFirst_eq_none_of_all_str {l : Option (List LinkItem)}
    (hstr : ∀ it ∈ l.getD [], linkOkB it = true)
    (h : getFirstLinkedRecordId l = none) : l.getD [] = [] := by
  cases l with
  | none => rfl
  | some l0 =>
    cases l0 with
    | nil => rfl
    | cons it rest =>
      have h1 := hstr it (by simp)
      cases it with
      | str i => simp [getFirstLinkedRecordId] at h
      | obj i => simp [linkOkB] at h1
      | other => simp [linkOkB] at h1

/-! ## Stability of the applicant lookup under store writes -/

theorem find_applicants_tupdate {l : List (Nat × AppFields)} {t : String} {aid : Nat}
    {af : AppFields} {f : AppFields → AppFields}
    (hnd : (l.map Prod.fst).Nodup)
    (hf : l.find? (fun p => decide (p.2.applicantId.getD "" = t)) = some (aid, af))
    (hpre : ∀ g, (f g).applicantId = g.applicantId) :
    (tupdate l aid f).find? (fun p => decide (p.2.applicantId.getD "" = t))
      = some (aid, f af) := by
  induction l with
  | nil => simp at hf
  | cons p rest ih =>
    simp only [List.map_cons, List.nodup_cons] at hnd
    by_cases hp : (p.2.applicantId.getD "" = t)
    · rw [List.find?_cons_of_pos _ (by simpa using hp)] at hf
      injection hf with hf
      rw [tupdate_cons, if_pos (by rw [hf])]
      have hid : ((f p.2).applicantId.getD "" = t) := by rw [hpre]; exact hp
      rw [List.find?_cons_of_pos _ (by simpa using hid)]
      rw [hf]
    · rw [List.find?_cons_of_neg _ (by simpa using hp)] at hf
      have hmem : aid ∈ rest.map Prod.fst := by
        have := List.mem_of_find?_eq_some hf
        exact List.mem_map_of_mem Prod.fst this
      have hne : p.1 ≠ aid := fun he => hnd.1 (he ▸ hmem)
      rw [tupdate_cons, if_neg hne, List.find?_cons_of_neg _ (by simpa using hp)]
      exact ih hnd.2 hf

theorem find_applicants_map {l : List (Nat × AppFields)} {t : String}
    (g : Nat × AppFields → AppFields)
    (hpre : ∀ x, (g x).applicantId = x.2.applicantId) :
    (l.map (fun p => (p.1, g p))).find? (fun p => decide (p.2.applicantId.getD "" = t))
      = (l.find? (fun p => decide (p.2.applicantId.getD "" = t))).map
          (fun q => (q.1, g q)) := by
  induction l with
  | nil => rfl
  | cons p rest ih =>
    by_cases hp : (p.2.applicantId.getD "" = t)
    · rw [List.map_cons, List.find?_cons_of_pos _ (by simp [hpre]; exact hp),
        List.find?_cons_of_pos _ (by simpa using hp)]
      rfl
    · rw [List.map_cons, List.find?_cons_of_neg _ (by simp [hpre]; exact hp),
        List.find?_cons_of_neg _ (by simpa using hp)]
      exact ih

theorem tget_applicants_of_find {b : Base} {t : String} {aid : Nat} {af : AppFields}
    (hnd : (b.applicants.map Prod.fst).Nodup)
    (hf : findApplicant b t = some (aid, af)) : tget b.applicants aid = some af :=
  tget_eq_some_of_mem hnd (List.mem_of_find?_eq_some hf)

/-! ## C4: missing-snapshot decompression -/

/-- C4 (corrected): with an applicant present whose Compressed JSON field is
empty or absent, decompress_applicant_data performs no child-record creation,
update or deletion — but it returns False, exactly the value the NotFound case
returns, so the two outcomes are not distinguishable by the result (only by
log level), and the CLI reports both as failures with exit code -1. -/
theorem decompress_missing_snapshot_is_failure :
    (∀ (b : Base) (t : String) (aid : Nat) (af : AppFields),
        findApplicant b t = some (aid, af) → af.compressedJson = .empty →
        decompress b t = (b, false) ∧ mainDecompressExit b t = -1) ∧
    (∀ (b : Base) (t : String), findApplicant b t = none →
        decompress b t = (b, false) ∧ mainDecompressExit b t = -1) := by
  constructor
  · intro b t aid af hfind hcj
    have hd : decompress b t = (b, false) := by
      simp [decompress, hfind, hcj]
    exact ⟨hd, by simp [mainDecompressExit, hd]⟩
  · intro b t hfind
    have hd : decompress b t = (b, false) := by
      simp [decompress, hfind]
    exact ⟨hd, by simp [mainDecompressExit, hd]⟩

/-- C4 witness: both branches of the theorem applied at a concrete store. -/
theorem decompress_missing_snapshot_is_failure_witness :
    decompress bEmptyJson "APP1" = (bEmptyJson, false) ∧
    decompress bEmptyJson "APP2" = (bEmptyJson, false) :=
  ⟨(decompress_missing_snapshot_is_failure.1 bEmptyJson "APP1" 10 afBlank
      (by decide) (by decide)).1,
   (decompress_missing_snapshot_is_failure.2 bEmptyJson "APP2" (by decide)).1⟩

/-- C4 counterexample: at a concrete store, the missing-snapshot call returns
the very same result value (False) as the NotFound call, and main exits -1 for
it, refuting that the outcome is a non-error distinguishable from NotFound. -/
theorem decompress_missing_snapshot_cex :
    decompress bEmptyJson "APP1" = (bEmptyJson, false) ∧
    decompress bEmptyJson "APP2" = (bEmptyJson, false) ∧
    (decompress bEmptyJson "APP1").2 = (decompress bEmptyJson "APP2").2 ∧
    mainDecompressExit bEmptyJson "APP1" = -1 := by
  refine ⟨by decide, by decide, by decide, by decide⟩

/-! ## C7 and C10: evaluator staleness -/

/-- C7 (confirmed): when both stored timestamps are present and parseable and
LLM Last Evaluated is at least the snapshot Last Modified, the evaluator
returns success having made no LLM call, slept never, and written nothing. -/
theorem evaluator_staleness_skip (pts : String → Option ℚ) (llm : Nat → LLMOutcome)
    (maxR : Nat) (d0 : ℚ) (nowS : String) (b : Base) (t : String) (aid : Nat)
    (af : AppFields) (slm sle : String) (dc de : ℚ)
    (hfind : findApplicant b t = some (aid, af))
    (hcj : af.compressedJson ≠ .empty)
    (hlm : af.lastModified = some slm) (hlle : af.llmLastEvaluated = some sle)
    (hpc : pts slm = some dc) (hpe : pts sle = some de) (hge : dc ≤ de) :
    evaluate pts llm maxR d0 nowS b t = ⟨b, true, 0, []⟩ := by
  have hskip : skipLLM pts af.lastModified af.llmLastEvaluated = true := by
    simp [skipLLM, parseBothTimes, hlm, hlle, hpc, hpe, hge]
  simp [evaluate, hfind, hcj, hskip]

/-- C7 witness: the theorem applied at a concrete store and parser. -/
theorem evaluator_staleness_skip_witness :
    evaluate pts0 llmAllApi 3 1 "now" bStale "APP1" =
      ⟨bStale, true, 0, []⟩ :=
  evaluator_staleness_skip pts0 llmAllApi 3 1 "now" bStale "APP1" 10
    { afBlank with
      compressedJson := .ok snapClean,
      lastModified := some "T1", llmLastEvaluated := some "T2" }
    "T1" "T2" 1 2 (by decide) (by decide) (by decide) (by decide) (by decide) (by decide)
    (by decide)

/-- C10 (confirmed): when Last Modified or LLM Last Evaluated is present but
does not parse, the except branch sets both comparison datetimes to
datetime.min, the staleness test min >= min succeeds, and the evaluator
returns success with no LLM call and no field write — despite the log line
announcing that evaluation will proceed. -/
theorem evaluator_badstamp_skip (pts : String → Option ℚ) (llm : Nat → LLMOutcome)
    (maxR : Nat) (d0 : ℚ) (nowS : String) (b : Base) (t : String) (aid : Nat)
    (af : AppFields)
    (hfind : findApplicant b t = some (aid, af))
    (hcj : af.compressedJson ≠ .empty)
    (hbad : (∃ s, af.lastModified = some s ∧ pts s = none) ∨
            (∃ s, af.llmLastEvaluated = some s ∧ pts s = none)) :
    evaluate pts llm maxR d0 nowS b t = ⟨b, true, 0, []⟩ := by
  have hboth : parseBothTimes pts af.lastModified af.llmLastEvaluated
      = (some dtMinQ, some dtMinQ) := by
    rcases hbad with ⟨s, hs, hps⟩ | ⟨s, hs, hps⟩
    · simp [parseBothTimes, hs, hps]
    · rcases hlm : af.lastModified with _ | s1
      · simp [parseBothTimes, hlm, hs, hps]
      · rcases hp1 : pts s1 with _ | d1
        · simp [parseBothTimes, hlm, hp1]
        · simp [parseBothTimes, hlm, hp1, hs, hps]
  have hskip : skipLLM pts af.lastModified af.llmLastEvaluated = true := by
    simp [skipLLM, hboth]
  simp [evaluate, hfind, hcj, hskip]

/-- C10 witness: the theorem applied at a store with an unparseable stamp. -/
theorem evaluator_badstamp_skip_witness :
    evaluate pts0 llmAllApi 3 1 "now" bBadStamp "APP1" =
      ⟨bBadStamp, true, 0, []⟩ :=
  evaluator_badstamp_skip pts0 llmAllApi 3 1 "now" bBadStamp "APP1" 10
    { afBlank with
      compressedJson := .ok snapClean,
      lastModified := some "BAD", llmLastEvaluated := some "T2" }
    (by decide) (by decide) (Or.inl ⟨"BAD", by decide, by decide⟩)

/-! ## C8: retry policy -/

theorem llmLoopAux_allApi (llm : Nat → LLMOutcome) (maxR : Nat) :
    ∀ (fuel retries : Nat) (delay : ℚ), maxR ≤ fuel + retries → retries < maxR →
    (∀ i, retries ≤ i → i < maxR → llm i = .apiErr) →
    llmLoopAux llm maxR fuel retries delay
      = (none, maxR - retries, geomList delay (maxR - retries - 1)) := by
  intro fuel
  induction fuel with
  | zero =>
    intro retries delay hle hlt _
    omega
  | succ n ih =>
    intro retries delay hle hlt hapi
    simp only [llmLoopAux, if_pos hlt, hapi retries le_rfl hlt]
    by_cases hnext : retries + 1 < maxR
    · rw [if_pos hnext]
      rw [ih (retries + 1) (2 * delay) (by omega) hnext
        (fun i hi1 hi2 => hapi i (by omega) hi2)]
      have h1 : maxR - (retries + 1) + 1 = maxR - retries := by omega
      have h2 : maxR - retries - 1 = (maxR - retries - 2) + 1 := by omega
      have h3 : maxR - (retries + 1) - 1 = maxR - retries - 2 := by omega
      simp only [h3, h1, h2, geomList]
    · rw [if_neg hnext]
      have h1 : maxR - retries = 1 := by omega
      have h2 : maxR - retries - 1 = 0 := by omega
      simp [h1, h2, geomList]

theorem llmLoopAux_firstOther (llm : Nat → LLMOutcome) (maxR : Nat) :
    ∀ (fuel retries : Nat) (delay : ℚ) (k : Nat), retries ≤ k → k < maxR →
    maxR ≤ fuel + retries →
    (∀ i, retries ≤ i → i < k → llm i = .apiErr) → llm k = .otherErr →
    llmLoopAux llm maxR fuel retries delay
      = (none, k + 1 - retries, geomList delay (k - retries)) := by
  intro fuel
  induction fuel with
  | zero =>
    intro retries delay k h1 h2 h3 _ _
    omega
  | succ n ih =>
    intro retries delay k h1 h2 h3 hapi hoth
    have hlt : retries < maxR := by omega
    rcases Nat.eq_or_lt_of_le h1 with he | hlt2
    · subst he
      simp only [llmLoopAux, if_pos hlt, hoth]
      have : retries + 1 - retries = 1 := by omega
      simp [this, Nat.sub_self, geomList]
    · simp only [llmLoopAux, if_pos hlt, hapi retries le_rfl hlt2]
      have hnext : retries + 1 < maxR := by omega
      rw [if_pos hnext]
      rw [ih (retries + 1) (2 * delay) k (by omega) h2 (by omega)
        (fun i hi1 hi2 => hapi i (by omega) hi2) hoth]
      have ha : k + 1 - (retries + 1) + 1 = k + 1 - retries := by omega
      have hc : k - (retries + 1) = k - retries - 1 := by omega
      rw [ha, hc]
      have hb : k - retries = (k - retries - 1) + 1 := by omega
      conv_rhs => rw [hb]
      simp [geomList, ha]

/-- C8 (confirmed): in the retry loop the distinguished API error is retried up
to the configured maximum number of attempts with an exponential backoff that
starts at the configured initial delay and doubles after each retry, any other
exception aborts at once with a failure and no further attempt, and exhausting
every attempt yields the failure result False rather than an exception.  The
defaults maxR = 3 and d0 = 1 are the source defaults for the two
configurables. -/
theorem evaluator_retry_policy (pts : String → Option ℚ) (llm : Nat → LLMOutcome)
    (maxR : Nat) (d0 : ℚ) (nowS : String) (b : Base) (t : String) (aid : Nat)
    (af : AppFields)
    (hfind : findApplicant b t = some (aid, af))
    (hcj : af.compressedJson ≠ .empty)
    (hnoskip : skipLLM pts af.lastModified af.llmLastEvaluated = false) :
    ((∀ i, i < maxR → llm i = .apiErr) →
        evaluate pts llm maxR d0 nowS b t = ⟨b, false, maxR, geomList d0 (maxR - 1)⟩) ∧
    (∀ k, k < maxR → (∀ i, i < k → llm i = .apiErr) → llm k = .otherErr →
        evaluate pts llm maxR d0 nowS b t = ⟨b, false, k + 1, geomList d0 k⟩) := by
  constructor
  · intro hapi
    rcases Nat.eq_zero_or_pos maxR with h0 | hpos
    · subst h0
      have hloop : llmLoop llm 0 d0 = (none, 0, []) := rfl
      simp [evaluate, hfind, hcj, hnoskip, hloop, geomList]
    · have hloop := llmLoopAux_allApi llm maxR maxR 0 d0 (by omega) hpos
        (fun i _ hi => hapi i hi)
      simp [evaluate, hfind, hcj, hnoskip, llmLoop, hloop]
  · intro k hk hapi hoth
    have hloop := llmLoopAux_firstOther llm maxR maxR 0 d0 k (Nat.zero_le k) hk
      (by omega) (fun i _ hi => hapi i hi) hoth
    simp [evaluate, hfind, hcj, hnoskip, llmLoop, hloop]

/-- C8 witness: all-API-error and immediate-other-error runs at the default
three attempts and one-second initial delay. -/
theorem evaluator_retry_policy_witness :
    evaluate pts0 llmAllApi 3 1 "now" bFresh "APP1" =
      ⟨bFresh, false, 3, [1, 2]⟩ ∧
    evaluate pts0 llmOther0 3 1 "now" bFresh "APP1" =
      ⟨bFresh, false, 1, []⟩ := by
  constructor
  · have h := (evaluator_retry_policy pts0 llmAllApi 3 1 "now" bFresh "APP1" 10
      { afBlank with
        compressedJson := .ok snapClean,
        lastModified := some "T2", llmLastEvaluated := some "T1" }
      (by decide) (by decide) (by decide)).1 (fun i _ => rfl)
    rw [h]
    have hg : geomList (1 : ℚ) (3 - 1) = [1, 2] := by
      simp [geomList]
    rw [hg]
  · have h := (evaluator_retry_policy pts0 llmOther0 3 1 "now" bFresh "APP1" 10
      { afBlank with
        compressedJson := .ok snapClean,
        lastModified := some "T2", llmLastEvaluated := some "T1" }
      (by decide) (by decide) (by decide)).2 0 (by decide) (fun i hi => absurd hi (by omega))
      rfl
    rw [h]
    decide

/-! ## C9: falsy result of a completed not-shortlisted evaluation -/

/-- C9 (confirmed): an applicant whose snapshot parses but who fails at least
one criterion gets Shortlist Status Not Shortlisted written, yet
shortlist_applicant falls off the end and returns None, a falsy value; the
all dispatcher of main.py treats the falsy return as a failure and exits -1,
so a completed not-shortlisted evaluation is reported as a failed operation. -/
theorem shortlist_notshortlisted_falsy (now : Nat) (b : Base) (t : String) (aid : Nat)
    (af : AppFields) (S : Snapshot)
    (hfind : findApplicant b t = some (aid, af))
    (hcj : af.compressedJson = .ok S)
    (hdec : shortlistDecision now S = false) :
    (shortlist now b t).ret = none ∧
    (shortlist now b t).base =
      { b with applicants :=
          (tupdate b.applicants aid
            (fun f => { f with shortlistStatus := some "Not Shortlisted" })) } ∧
    truthy (shortlist now b t).ret = false ∧
    mainShortlistExit now b t = -1 := by
  simp only [shortlistDecision, experienceCriterion] at hdec
  have hsh : shortlist now b t =
      ⟨{ b with applicants :=
          (tupdate b.applicants aid
            (fun f => { f with shortlistStatus := some "Not Shortlisted" })) },
       none,
       [expReason (calcExperienceYears now S.experience).1
          (calcExperienceYears now S.experience).2
          (decide ((calcExperienceYears now S.experience).1 ≥ 4)
            || (calcExperienceYears now S.experience).2),
        if compensationCriterion S.salary then
          "Compensation: " ++ String.intercalate ", " (compReasonParts S.salary)
        else "FAILED: Compensation - " ++ String.intercalate ", " (compReasonParts S.salary),
        locReason (personalLocation S.personal)
          (locationMatch (personalLocation S.personal))]⟩ := by
    simp only [shortlist, hfind, hcj, hdec, Bool.false_eq_true, if_false]
  refine ⟨by rw [hsh], by rw [hsh], by rw [hsh]; rfl, ?_⟩
  simp [mainShortlistExit, hsh, truthy]

/-- C9 witness: the theorem applied at the 150 USD store, which fails the
compensation criterion. -/
theorem shortlist_notshortlisted_falsy_witness :
    (shortlist 739252 bRate150 "APP1").ret = none ∧
    mainShortlistExit 739252 bRate150 "APP1" = -1 := by
  have h := shortlist_notshortlisted_falsy 739252 bRate150 "APP1" 10
    { afBlank with compressedJson := .ok snapRate150 } snapRate150
    (by decide) (by decide) (by decide)
  exact ⟨h.1, h.2.2.2⟩

/-! ## C5: compensation criterion -/

theorem strPrefix_avoid (p rest : String) (hp : (p.toList).isPrefixOf (rest.toList) = true)
    (X : String) : (p.toList).isPrefixOf ((rest ++ X).toList) = true := by
  rw [List.isPrefixOf_iff_prefix] at hp ⊢
  have he : (rest ++ X).toList = rest.toList ++ X.toList := by
    simp [String.toList]
  rw [he]
  exact hp.trans (List.prefix_append _ _)

/-- C5 (confirmed): the compensation criterion passes exactly when the
preferred rate is present, the currency is exactly USD, the rate is at most
100, and the availability is present and at least 20; and an applicant whose
snapshot asks 150 USD is written status Not Shortlisted, creates no Lead
record, and carries a score reason starting with FAILED: Compensation. -/
theorem compensation_criterion_spec :
    (∀ sal : Option SalaryJson,
        compensationCriterion sal = true ↔
          ((∃ r, salPreferredRate sal = some r ∧ salCurrency sal = some "USD" ∧ r ≤ 100) ∧
           (∃ a, salAvailability sal = some a ∧ 20 ≤ a))) ∧
    (∀ (now : Nat) (b : Base) (t : String) (aid : Nat) (af : AppFields) (S : Snapshot)
        (sd : SalaryJson),
        findApplicant b t = some (aid, af) → af.compressedJson = .ok S →
        S.salary = some sd → sd.preferred_rate = some 150 → sd.currency = some "USD" →
        (shortlist now b t).base =
          { b with applicants :=
              (tupdate b.applicants aid
                (fun f => { f with shortlistStatus := some "Not Shortlisted" })) } ∧
        (shortlist now b t).base.leadsTbl = b.leadsTbl ∧
        (shortlist now b t).ret = none ∧
        ∃ rs ∈ (shortlist now b t).reasons,
          ("FAILED: Compensation".toList).isPrefixOf rs.toList = true) := by
  constructor
  · intro sal
    rcases h1 : salPreferredRate sal with _ | r <;>
      rcases h2 : salCurrency sal with _ | c <;>
        rcases h3 : salAvailability sal with _ | a <;>
          simp [compensationCriterion, h1, h2, h3, beq_iff_eq, decide_eq_true_eq]
  · intro now b t aid af S sd hfind hcj hsal hpr hcur
    have hcomp : compensationCriterion S.salary = false := by
      have h150 : decide ((150 : ℚ) ≤ 100) = false := by decide
      simp [compensationCriterion, salPreferredRate, salCurrency, hsal, hpr, hcur, h150]
    have hsh : shortlist now b t =
        ⟨{ b with applicants :=
            (tupdate b.applicants aid
              (fun f => { f with shortlistStatus := some "Not Shortlisted" })) },
         none,
         [expReason (calcExperienceYears now S.experience).1
            (calcExperienceYears now S.experience).2
            (decide ((calcExperienceYears now S.experience).1 ≥ 4)
              || (calcExperienceYears now S.experience).2),
          "FAILED: Compensation - " ++ String.intercalate ", " (compReasonParts S.salary),
          locReason (personalLocation S.personal)
            (locationMatch (personalLocation S.personal))]⟩ := by
      simp only [shortlist, hfind, hcj, hcomp, Bool.and_false, Bool.false_and,
        Bool.false_eq_true, if_false]
    refine ⟨by rw [hsh], by rw [hsh], by rw [hsh], ?_⟩
    rw [hsh]
    refine ⟨"FAILED: Compensation - " ++ String.intercalate ", " (compReasonParts S.salary),
      by simp, ?_⟩
    exact strPrefix_avoid _ _ (by decide) _

/-- C5 witness: the 150 USD store. -/
theorem compensation_criterion_spec_witness :
    compensationCriterion (some ⟨some 80, none, some "USD", some 25⟩) = true ∧
    (shortlist 0 bRate150 "APP1").ret = none ∧
    (shortlist 0 bRate150 "APP1").base.leadsTbl = bRate150.leadsTbl := by
  refine ⟨?_, ?_⟩
  · exact (compensation_criterion_spec.1 _).mpr
      ⟨⟨80, rfl, rfl, by decide⟩, ⟨25, rfl, by decide⟩⟩
  · have h := compensation_criterion_spec.2 0 bRate150 "APP1" 10
      { afBlank with compressedJson := .ok snapRate150 } snapRate150
      ⟨some 150, some 100, some "USD", some 25⟩
      (by decide) (by decide) (by decide) (by decide) (by decide)
    exact ⟨h.2.2.1, h.2.1⟩

/-! ## C6: experience-years computation -/

theorem calcAux_fst (now : Nat) (l : List ExpObj) :
    ∀ (acc : ℚ) (t1 : Bool),
      (calcAux now acc t1 l).1 = acc + (l.filterMap (entryYears now)).sum := by
  induction l with
  | nil =>
    intro acc t1
    simp [calcAux]
  | cons e rest ih =>
    intro acc t1
    rcases h : entryYears now e with _ | d
    · simp [calcAux, h, ih, List.filterMap_cons]
    · simp [calcAux, h, ih, List.filterMap_cons, add_assoc]

theorem calcAux_snd (now : Nat) (l : List ExpObj) :
    ∀ (acc : ℚ) (t1 : Bool), (calcAux now acc t1 l).2 = (t1 || l.any tierHit) := by
  induction l with
  | nil =>
    intro acc t1
    simp [calcAux]
  | cons e rest ih =>
    intro acc t1
    rcases h : entryYears now e with _ | d <;>
      simp [calcAux, h, ih, List.any_cons, Bool.or_assoc]

theorem tierHit_iff (e : ExpObj) :
    tierHit e = true ↔
      ∃ c, e.company = some c ∧ ∃ g ∈ TIER1, strLower c = strLower g := by
  rcases hc : e.company with _ | c
  · simp [tierHit, hc]
  · simp only [tierHit, hc, Bool.and_eq_true, List.any_eq_true, beq_iff_eq,
      Option.some.injEq, decide_eq_true_eq]
    constructor
    · rintro ⟨hne, g, hg, heq⟩
      exact ⟨c, rfl, g, hg, heq.symm⟩
    · rintro ⟨c2, hc2, g, hg, heq⟩
      subst hc2
      refine ⟨?_, g, hg, heq.symm⟩
      intro he
      subst he
      have hlow : ∀ g2 ∈ TIER1, strLower g2 ≠ "" := by decide
      exact hlow g hg (by simpa [strLower] using heq.symm)

/-- C6 (confirmed): the total the experience loop returns equals the sum over
entries of the per-entry contribution — present for exactly the entries with a
truthy parseable start date and start not after the end (the end defaulting to
now when falsy), each contributing days divided by 365.25 — and the tier flag
holds exactly when some entry names a tier-1 company up to lowercasing, and
the experience criterion passes exactly when the total is at least 4 or such a
company occurs. -/
theorem experience_years_spec (now : Nat) (l : List ExpObj) :
    (calcExperienceYears now l).1 = (l.filterMap (entryYears now)).sum ∧
    ((calcExperienceYears now l).2 = true ↔
      ∃ e ∈ l, ∃ c, e.company = some c ∧ ∃ g ∈ TIER1, strLower c = strLower g) ∧
    (experienceCriterion now l = true ↔
      (4 ≤ (l.filterMap (entryYears now)).sum ∨
        ∃ e ∈ l, ∃ c, e.company = some c ∧ ∃ g ∈ TIER1, strLower c = strLower g)) := by
  have h1 : (calcExperienceYears now l).1 = (l.filterMap (entryYears now)).sum := by
    simp [calcExperienceYears, calcAux_fst]
  have h2 : (calcExperienceYears now l).2 = l.any tierHit := by
    simp [calcExperienceYears, calcAux_snd]
  refine ⟨h1, ?_, ?_⟩
  · rw [h2, List.any_eq_true]
    constructor
    · rintro ⟨e, he, ht⟩
      exact ⟨e, he, (tierHit_iff e).mp ht⟩
    · rintro ⟨e, he, hex⟩
      exact ⟨e, he, (tierHit_iff e).mpr hex⟩
  · simp only [experienceCriterion, Bool.or_eq_true, decide_eq_true_eq, ge_iff_le, h1, h2,
      List.any_eq_true]
    constructor
    · rintro (hs | ⟨e, he, ht⟩)
      · exact Or.inl hs
      · exact Or.inr ⟨e, he, (tierHit_iff e).mp ht⟩
    · rintro (hs | ⟨e, he, hex⟩)
      · exact Or.inl hs
      · exact Or.inr ⟨e, he, (tierHit_iff e).mpr hex⟩

/-! ## C3: compressor order preservation -/

theorem dlookLast_nodup_iff {α : Type} {raw : List (Nat × α)} {i : Nat} {r : α}
    (hnd : (raw.map Prod.fst).Nodup) : dlookLast raw i = some r ↔ (i, r) ∈ raw := by
  constructor
  · exact dlookLast_mem
  · intro hm
    exact dlookLast_eq_some hm (assoc_val_unique hnd hm)

theorem fetchByIds_map_fst_nodup {α : Type} {tbl : List (Nat × α)} (ids : List Nat)
    (hnd : (tbl.map Prod.fst).Nodup) : ((fetchByIds tbl ids).map Prod.fst).Nodup :=
  hnd.sublist (List.Sublist.map Prod.fst (List.filter_sublist tbl))

theorem mem_fetchByIds_iff {α : Type} {tbl : List (Nat × α)} {ids : List Nat}
    {p : Nat × α} : p ∈ fetchByIds tbl ids ↔ p ∈ tbl ∧ p.1 ∈ ids := by
  simp [fetchByIds, List.mem_filter, List.elem_iff]

/-- C3 (confirmed): whatever order the batched lookup returns its records in,
the compressor emits the experience array in exactly the order of the ids held
by the Work Experience link field, skipping ids with no record; consequently
the snapshot compress writes lists the linked entries in link-field order. -/
theorem compressor_order_preservation :
    (∀ (b : Base) (ids : List Nat) (raw : List (Nat × WorkFields)),
        (b.workTbl.map Prod.fst).Nodup →
        raw.Perm (fetchByIds b.workTbl ids) →
        compressExpFromRaw raw ids =
          ids.filterMap (fun i => (tget b.workTbl i).map expOf)) ∧
    (∀ (b : Base) (t : String) (aid : Nat) (af : AppFields),
        (b.workTbl.map Prod.fst).Nodup →
        findApplicant b t = some (aid, af) →
        ∃ S : Snapshot,
          (compress b t).1.applicants = tupdate b.applicants aid
            (fun f => { f with compressedJson := .ok S }) ∧
          S.experience = (getAllLinkedRecordIds af.workLink).filterMap
            (fun i => (tget b.workTbl i).map expOf)) := by
  have core : ∀ (b : Base) (ids : List Nat) (raw : List (Nat × WorkFields)),
      (b.workTbl.map Prod.fst).Nodup →
      raw.Perm (fetchByIds b.workTbl ids) →
      compressExpFromRaw raw ids =
        ids.filterMap (fun i => (tget b.workTbl i).map expOf) := by
    intro b ids raw hnd hperm
    have hrawnd : (raw.map Prod.fst).Nodup := by
      rw [List.Perm.nodup_iff (List.Perm.map Prod.fst hperm)]
      exact fetchByIds_map_fst_nodup ids hnd
    apply List.filterMap_congr
    intro i hi
    rcases hg : tget b.workTbl i with _ | r
    · have hnone : dlookLast raw i = none := by
        rw [dlookLast_eq_none_iff]
        intro p hp he
        have hpf : p ∈ fetchByIds b.workTbl ids := hperm.mem_iff.mp hp
        have hmem : p ∈ b.workTbl := (mem_fetchByIds_iff.mp hpf).1
        rw [tget_eq_none_iff] at hg
        exact hg (he ▸ List.mem_map_of_mem Prod.fst hmem)
      rw [hnone]
    · have hmem : (i, r) ∈ fetchByIds b.workTbl ids :=
        mem_fetchByIds_iff.mpr ⟨mem_of_tget_eq_some hg, hi⟩
      have hlook : dlookLast raw i = some r :=
        (dlookLast_nodup_iff hrawnd).mpr (hperm.mem_iff.mpr hmem)
      rw [hlook]
  refine ⟨core, ?_⟩
  intro b t aid af hnd hfind
  refine ⟨compressedSnapshot b af, ?_, ?_⟩
  · simp [compress, hfind]
  · exact core b (getAllLinkedRecordIds af.workLink) _ hnd (List.Perm.refl _)

/-- C3 witness: a reversed lookup result still yields link-field order. -/
theorem compressor_order_preservation_witness :
    compressExpFromRaw
        ((fetchByIds bGood.workTbl (getAllLinkedRecordIds (some [.str 1, .str 2]))).reverse)
        (getAllLinkedRecordIds (some [.str 1, .str 2])) =
      (getAllLinkedRecordIds (some [.str 1, .str 2])).filterMap
        (fun i => (tget bGood.workTbl i).map expOf) :=
  compressor_order_preservation.1 bGood _ _ (by decide)
    (by decide)

/-! ## Identity runs of the decompressor -/

theorem procExps_id (aid : Nat) (m : List ((Option String × Option String) × Nat)) :
    ∀ (E : List ExpObj) (P : List Nat) (b : Base),
    (b.workTbl.map Prod.fst).Nodup →
    (∀ e ∈ E, e.company.isSome = true ∧ e.title.isSome = true) →
    (∀ e ∈ E, ∃ i r, dlookLast m (ekey e) = some i ∧ tget b.workTbl i = some r ∧
        updWorkF e r = r) →
    (procExps aid m E b P).1 = b ∧
    (∀ x, x ∈ (procExps aid m E b P).2 ↔
      x ∈ P ∨ ∃ e ∈ E, dlookLast m (ekey e) = some x) := by
  intro E
  induction E with
  | nil =>
    intro P b hnd hE hm
    simp [procExps]
  | cons e rest ih =>
    intro P b hnd hE hm
    obtain ⟨i, r, hlook, hget, hupd⟩ := hm e (List.mem_cons_self e rest)
    have hc := (hE e (List.mem_cons_self e rest)).1
    have ht := (hE e (List.mem_cons_self e rest)).2
    have hguard : ¬ (e.company.isNone = true ∨ e.title.isNone = true) := by
      rintro (h | h)
      · rw [Option.isNone_iff_eq_none] at h
        rw [h] at hc
        simp at hc
      · rw [Option.isNone_iff_eq_none] at h
        rw [h] at ht
        simp at ht
    have hstep : tupdate b.workTbl i (updWorkF e) = b.workTbl := by
      apply tupdate_eq_self
      intro p hp hpi
      have h1 : tget b.workTbl p.1 = some p.2 := tget_eq_some_of_mem hnd (by simpa using hp)
      rw [hpi, hget] at h1
      injection h1 with h2
      rw [← h2]
      exact hupd
    have hone : procExps aid m (e :: rest) b P = procExps aid m rest b (i :: P) := by
      simp only [procExps, hlook]
      rw [if_neg hguard]
      show procExps aid m rest { b with workTbl := tupdate b.workTbl i (updWorkF e) }
        (i :: P) = _
      rw [hstep]
    obtain ⟨ihb, ihP⟩ := ih (i :: P) b hnd
      (fun e0 he0 => hE e0 (List.mem_cons_of_mem e he0))
      (fun e0 he0 => hm e0 (List.mem_cons_of_mem e he0))
    refine ⟨by rw [hone]; exact ihb, ?_⟩
    intro x
    rw [hone, ihP x]
    constructor
    · rintro (hx | ⟨e0, he0, hl0⟩)
      · rcases List.mem_cons.mp hx with he | hp
        · exact Or.inr ⟨e, List.mem_cons_self e rest, he ▸ hlook⟩
        · exact Or.inl hp
      · exact Or.inr ⟨e0, List.mem_cons_of_mem e he0, hl0⟩
    · rintro (hp | ⟨e0, he0, hl0⟩)
      · exact Or.inl (List.mem_cons_of_mem i hp)
      · rcases List.mem_cons.mp he0 with he | hr
        · subst he
          rw [hlook] at hl0
          injection hl0 with hxi
          exact Or.inl (List.mem_cons.mpr (Or.inl hxi.symm))
        · exact Or.inr ⟨e0, hr, hl0⟩

theorem personalStep_id (b1 : Base) (aid : Nat) (af1 : AppFields) (S : Snapshot)
    (hndP : (b1.personalTbl.map Prod.fst).Nodup)
    (h : ∀ J, S.personal = some J → ∃ pid,
        getFirstLinkedRecordId af1.personalLink = some pid ∧
        (∀ p, tget b1.personalTbl pid = some p → updPersonalF J p = p)) :
    personalStep b1 aid af1 S = b1 := by
  rcases hS : S.personal with _ | J
  · simp [personalStep, hS]
  · obtain ⟨pid, hgf, hupd⟩ := h J hS
    have hid : tupdate b1.personalTbl pid (updPersonalF J) = b1.personalTbl := by
      apply tupdate_eq_self
      intro q hq hqi
      have h1 : tget b1.personalTbl q.1 = some q.2 := tget_eq_some_of_mem hndP (by simpa using hq)
      rw [hqi] at h1
      exact hupd q.2 h1
    simp [personalStep, hS, hgf, hid]

theorem salaryStep_id (b1 : Base) (aid : Nat) (af1 : AppFields) (S : Snapshot)
    (hndS : (b1.salaryTbl.map Prod.fst).Nodup)
    (h : ∀ J, S.salary = some J → ∃ sid,
        getFirstLinkedRecordId af1.salaryLink = some sid ∧
        (∀ v, tget b1.salaryTbl sid = some v → updSalaryF J v = v)) :
    salaryStep b1 aid af1 S = b1 := by
  rcases hS : S.salary with _ | J
  · simp [salaryStep, hS]
  · obtain ⟨sid, hgf, hupd⟩ := h J hS
    have hid : tupdate b1.salaryTbl sid (updSalaryF J) = b1.salaryTbl := by
      apply tupdate_eq_self
      intro q hq hqi
      have h1 : tget b1.salaryTbl q.1 = some q.2 := tget_eq_some_of_mem hndS (by simpa using hq)
      rw [hqi] at h1
      exact hupd q.2 h1
    simp [salaryStep, hS, hgf, hid]

theorem expStep_facts (b1 : Base) (aid : Nat) (af1 : AppFields) (S : Snapshot)
    (hndW : (b1.workTbl.map Prod.fst).Nodup)
    (hE : ∀ e ∈ S.experience, e.company.isSome = true ∧ e.title.isSome = true)
    (hm : ∀ e ∈ S.experience, ∃ i r,
        dlookLast (buildExpMap (fetchByIds b1.workTbl (getAllLinkedRecordIds af1.workLink)))
          (ekey e) = some i ∧ tget b1.workTbl i = some r ∧ updWorkF e r = r)
    (hcov : ∀ j ∈ getAllLinkedRecordIds af1.workLink, ∀ r, tget b1.workTbl j = some r →
        ∃ e ∈ S.experience,
          dlookLast (buildExpMap (fetchByIds b1.workTbl (getAllLinkedRecordIds af1.workLink)))
            (ekey e) = some j) :
    (expStep b1 aid af1 S).workTbl = b1.workTbl ∧
    (expStep b1 aid af1 S).personalTbl = b1.personalTbl ∧
    (expStep b1 aid af1 S).salaryTbl = b1.salaryTbl := by
  obtain ⟨hb, hP⟩ := procExps_id aid
    (buildExpMap (fetchByIds b1.workTbl (getAllLinkedRecordIds af1.workLink)))
    S.experience [] b1 hndW hE hm
  have hdel : ∀ j ∈ (getAllLinkedRecordIds af1.workLink).filter
      (fun i => decide (¬ ((procExps aid
        (buildExpMap (fetchByIds b1.workTbl (getAllLinkedRecordIds af1.workLink)))
        S.experience b1 []).2.contains i))),
      j ∉ b1.workTbl.map Prod.fst := by
    intro j hj
    rw [List.mem_filter] at hj
    obtain ⟨hjc, hjn⟩ := hj
    simp only [decide_eq_true_eq] at hjn
    intro hjf
    rcases hr : tget b1.workTbl j with _ | r
    · rw [tget_eq_none_iff] at hr
      exact hr hjf
    · obtain ⟨e, he, hl⟩ := hcov j hjc r hr
      exact hjn (List.elem_iff.mpr ((hP j).mpr (Or.inr ⟨e, he, hl⟩)))
  simp only [expStep]
  rw [hb]
  split_ifs with hemp
  · exact ⟨rfl, rfl, rfl⟩
  · refine ⟨?_, rfl, rfl⟩
    show tdeleteMany b1.workTbl _ = b1.workTbl
    exact tdeleteMany_eq_self hdel

theorem expStep_id_full (b1 : Base) (aid : Nat) (af1 : AppFields) (S : Snapshot)
    (hndW : (b1.workTbl.map Prod.fst).Nodup)
    (hE : ∀ e ∈ S.experience, e.company.isSome = true ∧ e.title.isSome = true)
    (hm : ∀ e ∈ S.experience, ∃ i r,
        dlookLast (buildExpMap (fetchByIds b1.workTbl (getAllLinkedRecordIds af1.workLink)))
          (ekey e) = some i ∧ tget b1.workTbl i = some r ∧ updWorkF e r = r)
    (hcovAll : ∀ j ∈ getAllLinkedRecordIds af1.workLink,
        ∃ e ∈ S.experience,
          dlookLast (buildExpMap (fetchByIds b1.workTbl (getAllLinkedRecordIds af1.workLink)))
            (ekey e) = some j) :
    expStep b1 aid af1 S = b1 := by
  obtain ⟨hb, hP⟩ := procExps_id aid
    (buildExpMap (fetchByIds b1.workTbl (getAllLinkedRecordIds af1.workLink)))
    S.experience [] b1 hndW hE hm
  have hnil : (getAllLinkedRecordIds af1.workLink).filter
      (fun i => decide (¬ ((procExps aid
        (buildExpMap (fetchByIds b1.workTbl (getAllLinkedRecordIds af1.workLink)))
        S.experience b1 []).2.contains i))) = [] := by
    rw [List.filter_eq_nil_iff]
    intro j hjc
    simp only [decide_eq_true_eq, not_not]
    obtain ⟨e, he, hl⟩ := hcovAll j hjc
    exact List.elem_iff.mpr ((hP j).mpr (Or.inr ⟨e, he, hl⟩))
  simp only [expStep]
  rw [hnil, hb]
  rfl

theorem decompress_id_tables (b1 : Base) (t : String) (aid : Nat) (af1 : AppFields)
    (S : Snapshot)
    (hfind1 : findApplicant b1 t = some (aid, af1))
    (hcj : af1.compressedJson = .ok S)
    (hndP : (b1.personalTbl.map Prod.fst).Nodup)
    (hndW : (b1.workTbl.map Prod.fst).Nodup)
    (hndS : (b1.salaryTbl.map Prod.fst).Nodup)
    (hpers : ∀ J, S.personal = some J → ∃ pid,
        getFirstLinkedRecordId af1.personalLink = some pid ∧
        (∀ p, tget b1.personalTbl pid = some p → updPersonalF J p = p))
    (hsal : ∀ J, S.salary = some J → ∃ sid,
        getFirstLinkedRecordId af1.salaryLink = some sid ∧
        (∀ v, tget b1.salaryTbl sid = some v → updSalaryF J v = v))
    (hE : ∀ e ∈ S.experience, e.company.isSome = true ∧ e.title.isSome = true)
    (hm : ∀ e ∈ S.experience, ∃ i r,
        dlookLast (buildExpMap (fetchByIds b1.workTbl (getAllLinkedRecordIds af1.workLink)))
          (ekey e) = some i ∧ tget b1.workTbl i = some r ∧ updWorkF e r = r)
    (hcov : ∀ j ∈ getAllLinkedRecordIds af1.workLink, ∀ r, tget b1.workTbl j = some r →
        ∃ e ∈ S.experience,
          dlookLast (buildExpMap (fetchByIds b1.workTbl (getAllLinkedRecordIds af1.workLink)))
            (ekey e) = some j) :
    (decompress b1 t).1.workTbl = b1.workTbl ∧
    (decompress b1 t).1.personalTbl = b1.personalTbl ∧
    (decompress b1 t).1.salaryTbl = b1.salaryTbl ∧
    (decompress b1 t).2 = true := by
  have hps : personalStep b1 aid af1 S = b1 := personalStep_id b1 aid af1 S hndP hpers
  have hexp := expStep_facts b1 aid af1 S hndW hE hm hcov
  have hss : salaryStep (expStep b1 aid af1 S) aid af1 S = expStep b1 aid af1 S := by
    apply salaryStep_id
    · rw [hexp.2.2]
      exact hndS
    · intro J hJ
      obtain ⟨sid, hgf, hupd⟩ := hsal J hJ
      refine ⟨sid, hgf, ?_⟩
      intro v hv
      apply hupd
      rw [show (expStep b1 aid af1 S).salaryTbl = b1.salaryTbl from hexp.2.2] at hv
      exact hv
  have hd : decompress b1 t =
      (salaryStep (expStep (personalStep b1 aid af1 S) aid af1 S) aid af1 S, true) := by
    simp only [decompress, hfind1, hcj]
  rw [hps, hss] at hd
  rw [hd]
  exact ⟨hexp.1, hexp.2.1, hexp.2.2, rfl⟩

theorem decompress_id_full (b1 : Base) (t : String) (aid : Nat) (af1 : AppFields)
    (S : Snapshot)
    (hfind1 : findApplicant b1 t = some (aid, af1))
    (hcj : af1.compressedJson = .ok S)
    (hndP : (b1.personalTbl.map Prod.fst).Nodup)
    (hndW : (b1.workTbl.map Prod.fst).Nodup)
    (hndS : (b1.salaryTbl.map Prod.fst).Nodup)
    (hpers : ∀ J, S.personal = some J → ∃ pid,
        getFirstLinkedRecordId af1.personalLink = some pid ∧
        (∀ p, tget b1.personalTbl pid = some p → updPersonalF J p = p))
    (hsal : ∀ J, S.salary = some J → ∃ sid,
        getFirstLinkedRecordId af1.salaryLink = some sid ∧
        (∀ v, tget b1.salaryTbl sid = some v → updSalaryF J v = v))
    (hE : ∀ e ∈ S.experience, e.company.isSome = true ∧ e.title.isSome = true)
    (hm : ∀ e ∈ S.experience, ∃ i r,
        dlookLast (buildExpMap (fetchByIds b1.workTbl (getAllLinkedRecordIds af1.workLink)))
          (ekey e) = some i ∧ tget b1.workTbl i = some r ∧ updWorkF e r = r)
    (hcovAll : ∀ j ∈ getAllLinkedRecordIds af1.workLink,
        ∃ e ∈ S.experience,
          dlookLast (buildExpMap (fetchByIds b1.workTbl (getAllLinkedRecordIds af1.workLink)))
            (ekey e) = some j) :
    decompress b1 t = (b1, true) := by
  have hps : personalStep b1 aid af1 S = b1 := personalStep_id b1 aid af1 S hndP hpers
  have hexp : expStep b1 aid af1 S = b1 := expStep_id_full b1 aid af1 S hndW hE hm hcovAll
  have hss : salaryStep b1 aid af1 S = b1 := salaryStep_id b1 aid af1 S hndS hsal
  have hd : decompress b1 t =
      (salaryStep (expStep (personalStep b1 aid af1 S) aid af1 S) aid af1 S, true) := by
    simp only [decompress, hfind1, hcj]
  rw [hps, hexp, hss] at hd
  exact hd

theorem expMap_lookup {b : Base} {wids : List Nat}
    (hndW : (b.workTbl.map Prod.fst).Nodup)
    (hknd : ((fetchByIds b.workTbl wids).map (fun p => wkey p.2)).Nodup)
    {i : Nat} {r : WorkFields} (hi : i ∈ wids) (hget : tget b.workTbl i = some r) :
    dlookLast (buildExpMap (fetchByIds b.workTbl wids)) (wkey r) = some i := by
  have hmem : (i, r) ∈ fetchByIds b.workTbl wids :=
    mem_fetchByIds_iff.mpr ⟨mem_of_tget_eq_some hget, hi⟩
  apply dlookLast_eq_some
  · exact List.mem_map.mpr ⟨(i, r), hmem, rfl⟩
  · intro q hq hqk
    obtain ⟨p, hp, hpq⟩ := List.mem_map.mp hq
    have hkeq : wkey p.2 = wkey r := by
      rw [← hqk, ← hpq]
    have hpe : p = (i, r) := List.inj_on_of_nodup_map hknd hp hmem hkeq
    rw [← hpq, hpe]

theorem mem_compressExpFromRaw {raw : List (Nat × WorkFields)} {ids : List Nat} {e : ExpObj} :
    e ∈ compressExpFromRaw raw ids ↔
      ∃ i ∈ ids, ∃ r, dlookLast raw i = some r ∧ expOf r = e := by
  simp [compressExpFromRaw, List.mem_filterMap, Option.map_eq_some']

/-- C1 (corrected): compressing then immediately decompressing an applicant
whose resolvable linked Work Experience records all carry Company and Title
and have pairwise distinct (company, title) pairs leaves the Personal Details,
Work Experience and Salary Preferences tables exactly unchanged — every child
record keeps its business fields, and no Work Experience record is created or
deleted — and the decompression reports success. -/
theorem roundtrip_preserves_children (b : Base) (t : String) (aid : Nat) (af : AppFields)
    (hwf : WF b)
    (hfind : findApplicant b t = some (aid, af))
    (hpres : ∀ p ∈ fetchByIds b.workTbl (getAllLinkedRecordIds af.workLink),
        p.2.company.isSome = true ∧ p.2.title.isSome = true)
    (hknd : ((fetchByIds b.workTbl (getAllLinkedRecordIds af.workLink)).map
        (fun p => wkey p.2)).Nodup) :
    (decompress (compress b t).1 t).1.workTbl = b.workTbl ∧
    (decompress (compress b t).1 t).1.personalTbl = b.personalTbl ∧
    (decompress (compress b t).1 t).1.salaryTbl = b.salaryTbl ∧
    (decompress (compress b t).1 t).2 = true := by
  obtain ⟨hndA, hndP, hndW, hndS, -, -, -, -, -⟩ := hwf
  have hcomp : (compress b t).1 = { b with applicants :=
      (tupdate b.applicants aid
        (fun f => { f with compressedJson := CJson.ok (compressedSnapshot b af) })) } := by
    simp [compress, hfind]
  rw [hcomp]
  apply decompress_id_tables _ t aid
    { af with compressedJson := CJson.ok (compressedSnapshot b af) }
    (compressedSnapshot b af)
  · exact @find_applicants_tupdate b.applicants t aid af
      (fun g => { g with compressedJson := CJson.ok (compressedSnapshot b af) })
      hndA hfind (fun g => rfl)
  · rfl
  · exact hndP
  · exact hndW
  · exact hndS
  · intro J hJ
    have hJ2 : (match getFirstLinkedRecordId af.personalLink with
        | none => none
        | some pid => (tget b.personalTbl pid).map personalJsonOf) = some J := hJ
    rcases hgf : getFirstLinkedRecordId af.personalLink with _ | pid
    · simp only [hgf] at hJ2
      simp at hJ2
    · simp only [hgf] at hJ2
      rw [Option.map_eq_some'] at hJ2
      obtain ⟨p, hg, hJ3⟩ := hJ2
      refine ⟨pid, rfl, ?_⟩
      intro p2 hp2
      rw [hg] at hp2
      injection hp2 with hp3
      rw [← hp3, ← hJ3]
      exact updPersonalF_personalJsonOf p
  · intro J hJ
    have hJ2 : (match getFirstLinkedRecordId af.salaryLink with
        | none => none
        | some sid => (tget b.salaryTbl sid).map salaryJsonOf) = some J := hJ
    rcases hgf : getFirstLinkedRecordId af.salaryLink with _ | sid
    · simp only [hgf] at hJ2
      simp at hJ2
    · simp only [hgf] at hJ2
      rw [Option.map_eq_some'] at hJ2
      obtain ⟨v, hg, hJ3⟩ := hJ2
      refine ⟨sid, rfl, ?_⟩
      intro v2 hv2
      rw [hg] at hv2
      injection hv2 with hv3
      rw [← hv3, ← hJ3]
      exact updSalaryF_salaryJsonOf v
  · intro e he
    obtain ⟨i, hi, r, hlr, her⟩ := mem_compressExpFromRaw.mp he
    have hmem : (i, r) ∈ fetchByIds b.workTbl (getAllLinkedRecordIds af.workLink) :=
      dlookLast_mem hlr
    obtain ⟨h1, h2⟩ := hpres (i, r) hmem
    rw [← her]
    exact ⟨h1, h2⟩
  · intro e he
    obtain ⟨i, hi, r, hlr, her⟩ := mem_compressExpFromRaw.mp he
    have hmem : (i, r) ∈ fetchByIds b.workTbl (getAllLinkedRecordIds af.workLink) :=
      dlookLast_mem hlr
    have hget : tget b.workTbl i = some r :=
      tget_eq_some_of_mem hndW (mem_fetchByIds_iff.mp hmem).1
    refine ⟨i, r, ?_, hget, by rw [← her]; exact updWorkF_expOf r⟩
    have : ekey e = wkey r := by
      rw [← her]
      rfl
    rw [this]
    exact expMap_lookup hndW hknd hi hget
  · intro j hj r hr
    have hmem : (j, r) ∈ fetchByIds b.workTbl (getAllLinkedRecordIds af.workLink) :=
      mem_fetchByIds_iff.mpr ⟨mem_of_tget_eq_some hr, hj⟩
    have hlr : dlookLast (fetchByIds b.workTbl (getAllLinkedRecordIds af.workLink)) j
        = some r :=
      (dlookLast_nodup_iff (fetchByIds_map_fst_nodup _ hndW)).mpr hmem
    refine ⟨expOf r, mem_compressExpFromRaw.mpr ⟨j, hj, r, hlr, rfl⟩, ?_⟩
    have : ekey (expOf r) = wkey r := rfl
    rw [this]
    exact expMap_lookup hndW hknd hj hr

/-- C1 counterexample: with two linked Work Experience records sharing the
(company, title) pair (A, T) and one record lacking a Title, an immediate
compress-then-decompress deletes records, refuting the claim as stated for
every applicant. -/
theorem roundtrip_preserves_children_cex :
    (decompress (compress bDup "APP1").1 "APP1").1.workTbl ≠ bDup.workTbl ∧
    tget (decompress (compress bDup "APP1").1 "APP1").1.workTbl 1 = none ∧
    tget (decompress (compress bDup "APP1").1 "APP1").1.workTbl 3 = none := by
  refine ⟨by decide, by decide, by decide⟩

/-- C1 witness: the theorem applied at a well-formed store whose linked
children satisfy the amended preconditions. -/
theorem roundtrip_preserves_children_witness :
    (decompress (compress bGood "APP1").1 "APP1").1.workTbl = bGood.workTbl ∧
    (decompress (compress bGood "APP1").1 "APP1").1.personalTbl = bGood.personalTbl ∧
    (decompress (compress bGood "APP1").1 "APP1").1.salaryTbl = bGood.salaryTbl ∧
    (decompress (compress bGood "APP1").1 "APP1").2 = true :=
  roundtrip_preserves_children bGood "APP1" 10
    { afBlank with
      workLink := some [.str 1, .str 2],
      personalLink := some [.str 5],
      salaryLink := some [.str 6] }
    (by unfold WF; decide) (by decide) (by decide) (by decide)

/-! ## Characterization of one decompression run (towards C2) -/

theorem nodup_append_fresh {l : List Nat} {x : Nat} (hnd : l.Nodup) (hx : x ∉ l) :
    (l ++ [x]).Nodup := by
  refine List.Nodup.append hnd (List.nodup_singleton x) ?_
  intro a ha hax
  rw [List.mem_singleton] at hax
  exact hx (hax ▸ ha)

theorem tget_append_single_ne {α : Type} (tbl : List (Nat × α)) {i x : Nat} (v : α)
    (h : i ≠ x) : tget (tbl ++ [(x, v)]) i = tget tbl i := by
  rcases hg : tget tbl i with _ | r
  · rw [tget_append_right _ hg, tget_cons, if_neg (fun he => h he.symm)]
    rfl
  · exact tget_append_left _ hg

theorem tget_append_single_self {α : Type} (tbl : List (Nat × α)) {x : Nat} (v : α)
    (h : tget tbl x = none) : tget (tbl ++ [(x, v)]) x = some v := by
  rw [tget_append_right _ h, tget_cons, if_pos rfl]

theorem tget_map_snd {α β : Type} (g : α → β) (l : List (Nat × α)) (j : Nat) :
    tget (l.map (fun p => (p.1, g p.2))) j = (tget l j).map g := by
  induction l with
  | nil => rfl
  | cons p rest ih =>
    rw [List.map_cons, tget_cons, tget_cons]
    by_cases hp : p.1 = j
    · simp [hp]
    · simp only [hp, if_false]
      exact ih

theorem map_fst_map_snd {α β : Type} (g : α → β) (l : List (Nat × α)) :
    (l.map (fun p => (p.1, g p.2))).map Prod.fst = l.map Prod.fst := by
  induction l with
  | nil => rfl
  | cons p rest ih => simp [ih]

theorem procExps_char (aid : Nat) (m : List ((Option String × Option String) × Nat))
    (curIds0 : List Nat) :
    ∀ (E : List ExpObj) (b : Base) (P : List Nat),
    (b.workTbl.map Prod.fst).Nodup →
    (b.applicants.map Prod.fst).Nodup →
    (∀ i ∈ b.workTbl.map Prod.fst, i < b.nextId) →
    (∀ k i, dlookLast m k = some i → i ∈ curIds0 ∧ i < b.nextId ∧
        ∃ r, tget b.workTbl i = some r ∧ wkey r = k) →
    (∀ e ∈ E, e.company.isSome = true ∧ e.title.isSome = true) →
    ((E.map ekey).Nodup) →
    ∃ ext, ProcOut aid m curIds0 E b P
      (procExps aid m E b P).1 (procExps aid m E b P).2 ext := by
  intro E
  induction E with
  | nil =>
    intro b P hndW hndA hbW hm hE hEnd
    refine ⟨[], ?_⟩
    simp only [procExps]
    exact {
      hpt := rfl, hst := rfl, hlt := rfl, hnx := le_rfl,
      hndW2 := hndW, hndA2 := hndA, hbW2 := hbW,
      hother := fun j hj => rfl,
      hgR := fun g hg => ⟨g, hg, rfl, rfl, rfl, rfl, by simp⟩,
      hsub := List.nil_sublist [],
      hextnd := List.nodup_nil,
      hextb := by simp,
      hextq := by simp,
      hPR := by simp,
      hold := fun i hi hno => rfl,
      hent := by simp,
      hmR := fun k i hk => hm k i hk }
  | cons e rest ih =>
    intro b P hndW hndA hbW hm hE hEnd
    have hc := (hE e (List.mem_cons_self e rest)).1
    have ht := (hE e (List.mem_cons_self e rest)).2
    have hguard : ¬ (e.company.isNone = true ∨ e.title.isNone = true) := by
      rintro (h | h)
      · rw [Option.isNone_iff_eq_none] at h
        rw [h] at hc
        simp at hc
      · rw [Option.isNone_iff_eq_none] at h
        rw [h] at ht
        simp at ht
    have hEr : ∀ e0 ∈ rest, e0.company.isSome = true ∧ e0.title.isSome = true :=
      fun e0 he0 => hE e0 (List.mem_cons_of_mem e he0)
    have hEndr : (rest.map ekey).Nodup := by
      rw [List.map_cons, List.nodup_cons] at hEnd
      exact hEnd.2
    have hkey_not : ekey e ∉ rest.map ekey := by
      rw [List.map_cons, List.nodup_cons] at hEnd
      exact hEnd.1
    rcases hlook : dlookLast m (ekey e) with _ | rid
    · -- created branch
      set bs : Base :=
        { b with
          workTbl := b.workTbl ++ [(b.nextId, createWorkF e)],
          nextId := b.nextId + 1,
          applicants := tupdate b.applicants aid
            (fun f => { f with workLink := pushLink f.workLink b.nextId }) } with hbs
      have hbsw : bs.workTbl = b.workTbl ++ [(b.nextId, createWorkF e)] := rfl
      have hbsn : bs.nextId = b.nextId + 1 := rfl
      have hbsa : bs.applicants = tupdate b.applicants aid
          (fun f => { f with workLink := pushLink f.workLink b.nextId }) := rfl
      have hbsp : bs.personalTbl = b.personalTbl := rfl
      have hbss : bs.salaryTbl = b.salaryTbl := rfl
      have hbsl : bs.leadsTbl = b.leadsTbl := rfl
      have hone : procExps aid m (e :: rest) b P =
          procExps aid m rest bs (b.nextId :: P) := by
        simp only [procExps, hlook]
        rw [if_neg hguard]
      have hfresh : b.nextId ∉ b.workTbl.map Prod.fst := fun hmem =>
        absurd (hbW _ hmem) (lt_irrefl _)
      have hgetfresh : tget b.workTbl b.nextId = none := tget_eq_none_iff.mpr hfresh
      have hndWs : (bs.workTbl.map Prod.fst).Nodup := by
        rw [hbsw, List.map_append]
        exact nodup_append_fresh hndW hfresh
      have hndAs : (bs.applicants.map Prod.fst).Nodup := by
        rw [hbsa, tupdate_map_fst]
        exact hndA
      have hbWs : ∀ i ∈ bs.workTbl.map Prod.fst, i < bs.nextId := by
        intro i hi
        rw [hbsw, List.map_append] at hi
        rw [hbsn]
        rcases List.mem_append.mp hi with h | h
        · exact Nat.lt_succ_of_lt (hbW i h)
        · simp at h
          omega
      have hms : ∀ k i, dlookLast m k = some i → i ∈ curIds0 ∧ i < bs.nextId ∧
          ∃ r, tget bs.workTbl i = some r ∧ wkey r = k := by
        intro k i hk
        obtain ⟨h1, h2, r, h3, h4⟩ := hm k i hk
        rw [hbsn, hbsw]
        exact ⟨h1, Nat.lt_succ_of_lt h2, r, tget_append_left _ h3, h4⟩
      obtain ⟨ext0, po⟩ := ih bs (b.nextId :: P) hndWs hndAs hbWs hms hEr hEndr
      rw [hone]
      refine ⟨(b.nextId, e) :: ext0, ?_⟩
      have hnotrest : ∀ e0 ∈ rest, dlookLast m (ekey e0) ≠ some b.nextId := by
        intro e0 he0 hl0
        obtain ⟨-, hlt2, -⟩ := hm _ _ hl0
        exact absurd hlt2 (lt_irrefl _)
      have hcreated : tget (procExps aid m rest bs (b.nextId :: P)).1.workTbl b.nextId
          = some (createWorkF e) := by
        rw [po.hold b.nextId (by rw [hbsn]; exact Nat.lt_succ_self _) hnotrest, hbsw]
        exact tget_append_single_self _ _ hgetfresh
      refine {
        hpt := by rw [po.hpt, hbsp],
        hst := by rw [po.hst, hbss],
        hlt := by rw [po.hlt, hbsl],
        hnx := le_trans (by rw [hbsn]; exact Nat.le_succ _) po.hnx,
        hndW2 := po.hndW2,
        hndA2 := po.hndA2,
        hbW2 := po.hbW2,
        hother := ?_, hgR := ?_, hsub := ?_, hextnd := ?_, hextb := ?_,
        hextq := ?_, hPR := ?_, hold := ?_, hent := ?_, hmR := ?_ }
      · intro j hj
        rw [po.hother j hj, hbsa]
        exact tget_tupdate_ne _ hj
      · intro g hg
        have hgs : tget bs.applicants aid =
            some { g with workLink := pushLink g.workLink b.nextId } := by
          rw [hbsa]
          exact tget_tupdate_self _ hg
        obtain ⟨gR, hgR1, hgR2, hgR3, hgR4, hgR5, hgR6⟩ := po.hgR _ hgs
        refine ⟨gR, hgR1, hgR2, hgR3, hgR4, hgR5, ?_⟩
        rw [hgR6]
        show getAllLinkedRecordIds (pushLink g.workLink b.nextId) ++ _ = _
        rw [getAll_pushLink]
        simp
      · exact List.Sublist.cons₂ e po.hsub
      · rw [List.map_cons, List.nodup_cons]
        refine ⟨?_, po.hextnd⟩
        intro hmem
        obtain ⟨hge, -⟩ := po.hextb _ hmem
        rw [hbsn] at hge
        omega
      · intro x hx
        rcases List.mem_cons.mp hx with he2 | hx0
        · rw [he2]
          exact ⟨le_rfl, lt_of_lt_of_le (by rw [hbsn]; exact Nat.lt_succ_self _) po.hnx⟩
        · obtain ⟨h1, h2⟩ := po.hextb _ hx0
          rw [hbsn] at h1
          exact ⟨by omega, h2⟩
      · intro q hq
        rcases List.mem_cons.mp hq with he2 | hq0
        · rw [he2]
          refine ⟨hcreated, hlook, ?_⟩
          rw [po.hPR]
          exact Or.inl (List.mem_cons_self _ _)
        · exact po.hextq q hq0
      · intro x
        rw [po.hPR]
        constructor
        · rintro (hx | ⟨e0, he0, hl0⟩ | hx0)
          · rcases List.mem_cons.mp hx with he2 | hp
            · exact Or.inr (Or.inr (List.mem_cons.mpr (Or.inl he2)))
            · exact Or.inl hp
          · exact Or.inr (Or.inl ⟨e0, List.mem_cons_of_mem e he0, hl0⟩)
          · exact Or.inr (Or.inr (List.mem_cons.mpr (Or.inr hx0)))
        · rintro (hp | ⟨e0, he0, hl0⟩ | hx0)
          · exact Or.inl (List.mem_cons_of_mem _ hp)
          · rcases List.mem_cons.mp he0 with he2 | hr
            · rw [he2, hlook] at hl0
              exact absurd hl0 (by simp)
            · exact Or.inr (Or.inl ⟨e0, hr, hl0⟩)
          · rcases List.mem_cons.mp hx0 with he2 | hx1
            · exact Or.inl (List.mem_cons.mpr (Or.inl he2))
            · exact Or.inr (Or.inr hx1)
      · intro i hi hno
        have hne : i ≠ b.nextId := fun he2 => absurd (he2 ▸ hi) (lt_irrefl _)
        rw [po.hold i (by rw [hbsn]; exact Nat.lt_succ_of_lt hi)
          (fun e0 he0 => hno e0 (List.mem_cons_of_mem e he0)), hbsw]
        exact tget_append_single_ne _ _ hne
      · intro e0 he0
        rcases List.mem_cons.mp he0 with he2 | hr
        · subst he2
          refine ⟨b.nextId, ?_, Or.inr (List.mem_cons_self _ _),
            createWorkF e0, hcreated, rfl, updWorkF_createWorkF e0⟩
          rw [po.hPR]
          exact Or.inl (List.mem_cons_self _ _)
        · obtain ⟨i, hiP, hdisj, r, h1, h2, h3⟩ := po.hent e0 hr
          refine ⟨i, hiP, ?_, r, h1, h2, h3⟩
          rcases hdisj with h | h
          · exact Or.inl h
          · exact Or.inr (List.mem_cons_of_mem _ h)
      · exact po.hmR
    · -- matched branch
      obtain ⟨hrc, hrlt, r0, hr0, hk0⟩ := hm _ _ hlook
      set bs : Base := { b with workTbl := tupdate b.workTbl rid (updWorkF e) } with hbs
      have hbsw : bs.workTbl = tupdate b.workTbl rid (updWorkF e) := rfl
      have hbsn : bs.nextId = b.nextId := rfl
      have hbsa : bs.applicants = b.applicants := rfl
      have hbsp : bs.personalTbl = b.personalTbl := rfl
      have hbss : bs.salaryTbl = b.salaryTbl := rfl
      have hbsl : bs.leadsTbl = b.leadsTbl := rfl
      have hone : procExps aid m (e :: rest) b P =
          procExps aid m rest bs (rid :: P) := by
        simp only [procExps, hlook]
        rw [if_neg hguard]
      have hndWs : (bs.workTbl.map Prod.fst).Nodup := by
        rw [hbsw, tupdate_map_fst]
        exact hndW
      have hndAs : (bs.applicants.map Prod.fst).Nodup := by
        rw [hbsa]
        exact hndA
      have hbWs : ∀ i ∈ bs.workTbl.map Prod.fst, i < bs.nextId := by
        intro i hi
        rw [hbsw, tupdate_map_fst] at hi
        rw [hbsn]
        exact hbW i hi
      have hget_upd : tget bs.workTbl rid = some (updWorkF e r0) := by
        rw [hbsw]
        exact tget_tupdate_self _ hr0
      have hwkey_upd : wkey (updWorkF e r0) = ekey e := wkey_updWorkF r0 hc ht
      have hms : ∀ k i, dlookLast m k = some i → i ∈ curIds0 ∧ i < bs.nextId ∧
          ∃ r, tget bs.workTbl i = some r ∧ wkey r = k := by
        intro k i hk
        obtain ⟨h1, h2, r, h3, h4⟩ := hm k i hk
        rw [hbsn]
        refine ⟨h1, h2, ?_⟩
        by_cases hir : i = rid
        · subst hir
          rw [hr0] at h3
          injection h3 with h5
          refine ⟨updWorkF e r0, hget_upd, ?_⟩
          rw [hwkey_upd, ← hk0, h5]
          exact h4
        · refine ⟨r, ?_, h4⟩
          rw [hbsw, tget_tupdate_ne _ hir]
          exact h3
      have hnotrest : ∀ e0 ∈ rest, dlookLast m (ekey e0) ≠ some rid := by
        intro e0 he0 hl0
        obtain ⟨-, -, r2, h3, h4⟩ := hms _ _ hl0
        rw [hget_upd] at h3
        injection h3 with h5
        rw [← h5, hwkey_upd] at h4
        apply hkey_not
        rw [h4]
        exact List.mem_map_of_mem ekey he0
      obtain ⟨ext0, po⟩ := ih bs (rid :: P) hndWs hndAs hbWs hms hEr hEndr
      rw [hone]
      refine ⟨ext0, ?_⟩
      have hupdated : tget (procExps aid m rest bs (rid :: P)).1.workTbl rid
          = some (updWorkF e r0) := by
        rw [po.hold rid (by rw [hbsn]; exact hrlt) hnotrest]
        exact hget_upd
      refine {
        hpt := by rw [po.hpt, hbsp],
        hst := by rw [po.hst, hbss],
        hlt := by rw [po.hlt, hbsl],
        hnx := by rw [← hbsn]; exact po.hnx,
        hndW2 := po.hndW2,
        hndA2 := po.hndA2,
        hbW2 := po.hbW2,
        hother := by
          intro j hj
          rw [po.hother j hj, hbsa],
        hgR := by
          intro g hg
          exact po.hgR g (by rw [hbsa]; exact hg),
        hsub := List.Sublist.cons e po.hsub,
        hextnd := po.hextnd,
        hextb := by
          intro x hx
          obtain ⟨h1, h2⟩ := po.hextb x hx
          rw [hbsn] at h1
          exact ⟨h1, h2⟩,
        hextq := po.hextq,
        hPR := ?_, hold := ?_, hent := ?_, hmR := po.hmR }
      · intro x
        rw [po.hPR]
        constructor
        · rintro (hx | ⟨e0, he0, hl0⟩ | hx0)
          · rcases List.mem_cons.mp hx with he2 | hp
            · exact Or.inr (Or.inl ⟨e, List.mem_cons_self e rest, he2 ▸ hlook⟩)
            · exact Or.inl hp
          · exact Or.inr (Or.inl ⟨e0, List.mem_cons_of_mem e he0, hl0⟩)
          · exact Or.inr (Or.inr hx0)
        · rintro (hp | ⟨e0, he0, hl0⟩ | hx0)
          · exact Or.inl (List.mem_cons_of_mem _ hp)
          · rcases List.mem_cons.mp he0 with he2 | hr
            · rw [he2, hlook] at hl0
              injection hl0 with h5
              exact Or.inl (List.mem_cons.mpr (Or.inl h5.symm))
            · exact Or.inr (Or.inl ⟨e0, hr, hl0⟩)
          · exact Or.inr (Or.inr hx0)
      · intro i hi hno
        have hne : i ≠ rid := by
          intro he2
          exact hno e (List.mem_cons_self e rest) (he2 ▸ hlook)
        rw [po.hold i (by rw [hbsn]; exact hi)
          (fun e0 he0 => hno e0 (List.mem_cons_of_mem e he0)), hbsw]
        exact tget_tupdate_ne _ hne
      · intro e0 he0
        rcases List.mem_cons.mp he0 with he2 | hr
        · subst he2
          refine ⟨rid, ?_, Or.inl hlook, updWorkF e0 r0, hupdated,
            wkey_updWorkF r0 hc ht, updWorkF_idem e0 r0⟩
          rw [po.hPR]
          exact Or.inl (List.mem_cons_self _ _)
        · exact po.hent e0 hr

theorem tget_tupdate {α : Type} (l : List (Nat × α)) (i : Nat) (f : α → α) :
    tget (tupdate l i f) i = (tget l i).map f := by
  rcases hg : tget l i with _ | r
  · rw [tget_eq_none_iff] at hg
    have : tget (tupdate l i f) i = none := by
      rw [tget_eq_none_iff, tupdate_map_fst]
      exact hg
    rw [this]
    rfl
  · rw [tget_tupdate_self f hg]
    rfl

theorem tupdate_tupdate {α : Type} (l : List (Nat × α)) (i : Nat) (f g : α → α) :
    tupdate (tupdate l i f) i g = tupdate l i (fun x => g (f x)) := by
  simp only [tupdate, List.map_map]
  apply List.map_congr_left
  intro p hp
  by_cases h : p.1 = i
  · simp [Function.comp, h]
  · simp [Function.comp, h]

theorem getAll_mapDrop (ids : List Nat) (l : Option (List LinkItem)) :
    getAllLinkedRecordIds (l.map (dropLinkIds ids)) =
      (getAllLinkedRecordIds l).filter (fun i => decide (¬ ids.contains i)) := by
  cases l with
  | none => rfl
  | some l0 => exact getAll_dropLinkIds ids l0

theorem dropLinkIds_nil (l : List LinkItem) : dropLinkIds [] l = l := by
  apply List.filter_eq_self.mpr
  intro a ha
  cases a <;> simp

theorem deleteWorks_nil (b : Base) : deleteWorks b [] = b := by
  have h1 : tdeleteMany b.workTbl [] = b.workTbl := by
    apply tdeleteMany_eq_self
    intro j hj
    simp at hj
  have h2 : b.applicants.map (fun p =>
      (p.1, { p.2 with workLink := p.2.workLink.map (dropLinkIds []) })) = b.applicants := by
    have hfun : (fun p : Nat × AppFields =>
        (p.1, { p.2 with workLink := p.2.workLink.map (dropLinkIds []) })) =
        (fun p => p) := by
      funext p
      have : p.2.workLink.map (dropLinkIds []) = p.2.workLink := by
        cases hw : p.2.workLink with
        | none => rfl
        | some l0 => simp [dropLinkIds_nil]
      rw [this]
    rw [hfun, List.map_id']
  simp only [deleteWorks, h1, h2]

theorem procExps_applicants (aid : Nat) (m : List ((Option String × Option String) × Nat)) :
    ∀ (E : List ExpObj) (b : Base) (P : List Nat),
    ∃ F : AppFields → AppFields,
      (procExps aid m E b P).1.applicants = tupdate b.applicants aid F ∧
      ∀ g, (F g).applicantId = g.applicantId ∧ (F g).personalLink = g.personalLink ∧
        (F g).salaryLink = g.salaryLink ∧ (F g).compressedJson = g.compressedJson := by
  intro E
  induction E with
  | nil =>
    intro b P
    exact ⟨fun g => g, (tupdate_eq_self (fun p _ _ => rfl)).symm,
      fun g => ⟨rfl, rfl, rfl, rfl⟩⟩
  | cons e rest ih =>
    intro b P
    by_cases hguard : e.company.isNone = true ∨ e.title.isNone = true
    · have hone : procExps aid m (e :: rest) b P = procExps aid m rest b P := by
        simp only [procExps]
        rw [if_pos hguard]
      rw [hone]
      exact ih b P
    · rcases hlook : dlookLast m (ekey e) with _ | rid
      · have hone : procExps aid m (e :: rest) b P = procExps aid m rest
            { b with
              workTbl := b.workTbl ++ [(b.nextId, createWorkF e)],
              nextId := b.nextId + 1,
              applicants := tupdate b.applicants aid
                (fun f => { f with workLink := pushLink f.workLink b.nextId }) }
            (b.nextId :: P) := by
          simp only [procExps, hlook]
          rw [if_neg hguard]
        obtain ⟨F0, hF0a, hF0p⟩ := ih
          { b with
            workTbl := b.workTbl ++ [(b.nextId, createWorkF e)],
            nextId := b.nextId + 1,
            applicants := tupdate b.applicants aid
              (fun f => { f with workLink := pushLink f.workLink b.nextId }) }
          (b.nextId :: P)
        refine ⟨fun g => F0 { g with workLink := pushLink g.workLink b.nextId }, ?_, ?_⟩
        · rw [hone, hF0a]
          show tupdate (tupdate b.applicants aid
            (fun f => { f with workLink := pushLink f.workLink b.nextId })) aid F0 = _
          rw [tupdate_tupdate]
        · intro g
          obtain ⟨h1, h2, h3, h4⟩ := hF0p { g with workLink := pushLink g.workLink b.nextId }
          exact ⟨h1, h2, h3, h4⟩
      · have hone : procExps aid m (e :: rest) b P = procExps aid m rest
            { b with workTbl := tupdate b.workTbl rid (updWorkF e) } (rid :: P) := by
          simp only [procExps, hlook]
          rw [if_neg hguard]
        obtain ⟨F0, hF0a, hF0p⟩ :=
          ih { b with workTbl := tupdate b.workTbl rid (updWorkF e) } (rid :: P)
        refine ⟨F0, ?_, hF0p⟩
        rw [hone, hF0a]

theorem personalStep_post (b : Base) (aid : Nat) (af : AppFields) (S : Snapshot)
    (hndP : (b.personalTbl.map Prod.fst).Nodup)
    (hbP : ∀ i ∈ b.personalTbl.map Prod.fst, i < b.nextId)
    (hstr : ∀ it ∈ af.personalLink.getD [], linkOkB it = true) :
    ∃ F : AppFields → AppFields,
      (personalStep b aid af S).applicants = tupdate b.applicants aid F ∧
      (∀ g, (F g).applicantId = g.applicantId ∧ (F g).workLink = g.workLink ∧
        (F g).salaryLink = g.salaryLink ∧ (F g).compressedJson = g.compressedJson) ∧
      (personalStep b aid af S).workTbl = b.workTbl ∧
      (personalStep b aid af S).salaryTbl = b.salaryTbl ∧
      (personalStep b aid af S).leadsTbl = b.leadsTbl ∧
      b.nextId ≤ (personalStep b aid af S).nextId ∧
      ((personalStep b aid af S).personalTbl.map Prod.fst).Nodup ∧
      (∀ i ∈ (personalStep b aid af S).personalTbl.map Prod.fst,
        i < (personalStep b aid af S).nextId) ∧
      (∀ J, S.personal = some J → ∃ pid,
        (∀ g, g.personalLink = af.personalLink →
          getFirstLinkedRecordId (F g).personalLink = some pid) ∧
        ∀ p, tget (personalStep b aid af S).personalTbl pid = some p →
          updPersonalF J p = p) := by
  rcases hS : S.personal with _ | J
  · have hps : personalStep b aid af S = b := by
      simp [personalStep, hS]
    rw [hps]
    refine ⟨fun g => g, (tupdate_eq_self (fun p _ _ => rfl)).symm,
      fun g => ⟨rfl, rfl, rfl, rfl⟩, rfl, rfl, rfl, le_rfl, hndP, hbP, ?_⟩
    intro J hJ
    exact Option.noConfusion hJ
  · rcases hgf : getFirstLinkedRecordId af.personalLink with _ | pid
    · have hps : personalStep b aid af S =
          { b with
            personalTbl := b.personalTbl ++ [(b.nextId, createPersonalF J)],
            nextId := b.nextId + 1,
            applicants := tupdate b.applicants aid
              (fun f => { f with personalLink := pushLink f.personalLink b.nextId }) } := by
        simp [personalStep, hS, hgf]
      rw [hps]
      have hfresh : b.nextId ∉ b.personalTbl.map Prod.fst := fun hmem =>
        absurd (hbP _ hmem) (lt_irrefl _)
      refine ⟨fun f => { f with personalLink := pushLink f.personalLink b.nextId },
        rfl, fun g => ⟨rfl, rfl, rfl, rfl⟩, rfl, rfl, rfl, Nat.le_succ _, ?_, ?_, ?_⟩
      · rw [List.map_append]
        exact nodup_append_fresh hndP hfresh
      · intro i hi
        show i < b.nextId + 1
        rw [List.map_append] at hi
        rcases List.mem_append.mp hi with h | h
        · exact Nat.lt_succ_of_lt (hbP i h)
        · simp at h
          omega
      · intro J2 hJ2
        injection hJ2 with hJJ
        subst hJJ
        have hnil : af.personalLink.getD [] = [] := getFirst_eq_none_of_all_str hstr hgf
        refine ⟨b.nextId, ?_, ?_⟩
        · intro g hg
          show getFirstLinkedRecordId (pushLink g.personalLink b.nextId) = _
          rw [hg]
          show getFirstLinkedRecordId (some (af.personalLink.getD [] ++ [.str b.nextId])) = _
          rw [hnil]
          rfl
        · intro p hp
          rw [tget_append_single_self _ _ (tget_eq_none_iff.mpr hfresh)] at hp
          injection hp with hp2
          rw [← hp2]
          exact updPersonalF_createPersonalF J
    · have hps : personalStep b aid af S =
          { b with personalTbl := tupdate b.personalTbl pid (updPersonalF J) } := by
        simp [personalStep, hS, hgf]
      rw [hps]
      refine ⟨fun g => g, (tupdate_eq_self (fun p _ _ => rfl)).symm,
        fun g => ⟨rfl, rfl, rfl, rfl⟩, rfl, rfl, rfl, le_rfl, ?_, ?_, ?_⟩
      · rw [tupdate_map_fst]
        exact hndP
      · intro i hi
        rw [tupdate_map_fst] at hi
        exact hbP i hi
      · intro J2 hJ2
        injection hJ2 with hJJ
        subst hJJ
        refine ⟨pid, ?_, ?_⟩
        · intro g hg
          show getFirstLinkedRecordId g.personalLink = _
          rw [hg]
          exact hgf
        · intro p hp
          rw [tget_tupdate] at hp
          rcases hq : tget b.personalTbl pid with _ | q
          · rw [hq] at hp
            exact Option.noConfusion hp
          · rw [hq] at hp
            injection hp with hp2
            rw [← hp2]
            exact updPersonalF_idem J q

theorem salaryStep_post (b : Base) (aid : Nat) (af : AppFields) (S : Snapshot)
    (hndS : (b.salaryTbl.map Prod.fst).Nodup)
    (hbS : ∀ i ∈ b.salaryTbl.map Prod.fst, i < b.nextId)
    (hstr : ∀ it ∈ af.salaryLink.getD [], linkOkB it = true) :
    ∃ F : AppFields → AppFields,
      (salaryStep b aid af S).applicants = tupdate b.applicants aid F ∧
      (∀ g, (F g).applicantId = g.applicantId ∧ (F g).workLink = g.workLink ∧
        (F g).personalLink = g.personalLink ∧ (F g).compressedJson = g.compressedJson) ∧
      (salaryStep b aid af S).workTbl = b.workTbl ∧
      (salaryStep b aid af S).personalTbl = b.personalTbl ∧
      (salaryStep b aid af S).leadsTbl = b.leadsTbl ∧
      b.nextId ≤ (salaryStep b aid af S).nextId ∧
      ((salaryStep b aid af S).salaryTbl.map Prod.fst).Nodup ∧
      (∀ J, S.salary = some J → ∃ sid,
        (∀ g, g.salaryLink = af.salaryLink →
          getFirstLinkedRecordId (F g).salaryLink = some sid) ∧
        ∀ v, tget (salaryStep b aid af S).salaryTbl sid = some v →
          updSalaryF J v = v) := by
  rcases hS : S.salary with _ | J
  · have hps : salaryStep b aid af S = b := by
      simp [salaryStep, hS]
    rw [hps]
    refine ⟨fun g => g, (tupdate_eq_self (fun p _ _ => rfl)).symm,
      fun g => ⟨rfl, rfl, rfl, rfl⟩, rfl, rfl, rfl, le_rfl, hndS, ?_⟩
    intro J hJ
    exact Option.noConfusion hJ
  · rcases hgf : getFirstLinkedRecordId af.salaryLink with _ | sid
    · have hps : salaryStep b aid af S =
          { b with
            salaryTbl := b.salaryTbl ++ [(b.nextId, createSalaryF J)],
            nextId := b.nextId + 1,
            applicants := tupdate b.applicants aid
              (fun f => { f with salaryLink := pushLink f.salaryLink b.nextId }) } := by
        simp [salaryStep, hS, hgf]
      rw [hps]
      have hfresh : b.nextId ∉ b.salaryTbl.map Prod.fst := fun hmem =>
        absurd (hbS _ hmem) (lt_irrefl _)
      refine ⟨fun f => { f with salaryLink := pushLink f.salaryLink b.nextId },
        rfl, fun g => ⟨rfl, rfl, rfl, rfl⟩, rfl, rfl, rfl, Nat.le_succ _, ?_, ?_⟩
      · rw [List.map_append]
        exact nodup_append_fresh hndS hfresh
      · intro J2 hJ2
        injection hJ2 with hJJ
        subst hJJ
        have hnil : af.salaryLink.getD [] = [] := getFirst_eq_none_of_all_str hstr hgf
        refine ⟨b.nextId, ?_, ?_⟩
        · intro g hg
          show getFirstLinkedRecordId (pushLink g.salaryLink b.nextId) = _
          rw [hg]
          show getFirstLinkedRecordId (some (af.salaryLink.getD [] ++ [.str b.nextId])) = _
          rw [hnil]
          rfl
        · intro v hv
          rw [tget_append_single_self _ _ (tget_eq_none_iff.mpr hfresh)] at hv
          injection hv with hv2
          rw [← hv2]
          exact updSalaryF_createSalaryF J
    · have hps : salaryStep b aid af S =
          { b with salaryTbl := tupdate b.salaryTbl sid (updSalaryF J) } := by
        simp [salaryStep, hS, hgf]
      rw [hps]
      refine ⟨fun g => g, (tupdate_eq_self (fun p _ _ => rfl)).symm,
        fun g => ⟨rfl, rfl, rfl, rfl⟩, rfl, rfl, rfl, le_rfl, ?_, ?_⟩
      · rw [tupdate_map_fst]
        exact hndS
      · intro J2 hJ2
        injection hJ2 with hJJ
        subst hJJ
        refine ⟨sid, ?_, ?_⟩
        · intro g hg
          show getFirstLinkedRecordId g.salaryLink = _
          rw [hg]
          exact hgf
        · intro v hv
          rw [tget_tupdate] at hv
          rcases hq : tget b.salaryTbl sid with _ | q
          · rw [hq] at hv
            exact Option.noConfusion hv
          · rw [hq] at hv
            injection hv with hv2
            rw [← hv2]
            exact updSalaryF_idem J q

/-- Full characterization of one successful decompression run with a clean
snapshot: the run succeeds, the applicant record survives with its snapshot
field intact, and its linked Work Experience set after the run corresponds
exactly to the snapshot entries, with all touched records idempotent under a
further update from the same entries. -/
theorem decompress_run_post (b : Base) (t : String) (aid : Nat) (af : AppFields)
    (S : Snapshot)
    (hwf : WF b)
    (hfind : findApplicant b t = some (aid, af))
    (hcj : af.compressedJson = .ok S)
    (hE : ∀ e ∈ S.experience, e.company.isSome = true ∧ e.title.isSome = true)
    (hEnd : (S.experience.map ekey).Nodup) :
    (decompress b t).2 = true ∧
    ∃ af3 : AppFields,
      findApplicant (decompress b t).1 t = some (aid, af3) ∧
      af3.compressedJson = af.compressedJson ∧
      appWorkIds (decompress b t).1 aid = getAllLinkedRecordIds af3.workLink ∧
      ((decompress b t).1.personalTbl.map Prod.fst).Nodup ∧
      ((decompress b t).1.workTbl.map Prod.fst).Nodup ∧
      ((decompress b t).1.salaryTbl.map Prod.fst).Nodup ∧
      (∀ J, S.personal = some J → ∃ pid,
        getFirstLinkedRecordId af3.personalLink = some pid ∧
        ∀ p, tget (decompress b t).1.personalTbl pid = some p → updPersonalF J p = p) ∧
      (∀ J, S.salary = some J → ∃ sid,
        getFirstLinkedRecordId af3.salaryLink = some sid ∧
        ∀ v, tget (decompress b t).1.salaryTbl sid = some v → updSalaryF J v = v) ∧
      (getAllLinkedRecordIds af3.workLink).Nodup ∧
      (∀ x ∈ getAllLinkedRecordIds af3.workLink, ∃ r,
        tget (decompress b t).1.workTbl x = some r ∧
        ∃ e ∈ S.experience, wkey r = ekey e ∧ updWorkF e r = r) ∧
      (∀ e ∈ S.experience, ∃ x ∈ getAllLinkedRecordIds af3.workLink, ∃ r,
        tget (decompress b t).1.workTbl x = some r ∧ wkey r = ekey e ∧
        updWorkF e r = r) ∧
      (∀ x ∈ getAllLinkedRecordIds af3.workLink,
        ∀ y ∈ getAllLinkedRecordIds af3.workLink, ∀ rx ry,
        tget (decompress b t).1.workTbl x = some rx →
        tget (decompress b t).1.workTbl y = some ry → wkey rx = wkey ry → x = y) ∧
      (∀ e ∈ S.experience, ∀ i,
        dlookLast (buildExpMap (fetchByIds b.workTbl (getAllLinkedRecordIds af.workLink)))
          (ekey e) = some i →
        i ∈ getAllLinkedRecordIds af3.workLink ∧ ∃ r,
          tget (decompress b t).1.workTbl i = some r ∧ wkey r = ekey e) := by
  obtain ⟨hndA, hndP, hndW, hndS, hndL, hbP, hbW, hbS, hlinks⟩ := hwf
  have hgetaf : tget b.applicants aid = some af := tget_applicants_of_find hndA hfind
  obtain ⟨hstrP, hstrW, hstrS, hndWL, hbWL, hbPL, hbSL⟩ :=
    hlinks (aid, af) (mem_of_tget_eq_some hgetaf)
  obtain ⟨FP, hFPa, hFPp, hFPw, hFPs, hFPl, hFPn, hFPndP, hFPbP, hFPpers⟩ :=
    personalStep_post b aid af S hndP hbP hstrP
  obtain ⟨b1, hb1⟩ : ∃ x, x = personalStep b aid af S := ⟨_, rfl⟩
  rw [← hb1] at hFPa hFPw hFPs hFPl hFPn hFPndP hFPbP hFPpers
  obtain ⟨hFPid, hFPwl, hFPsl, hFPcj⟩ := hFPp af
  have hb1ndA : (b1.applicants.map Prod.fst).Nodup := by
    rw [hFPa, tupdate_map_fst]
    exact hndA
  have hb1ndW : (b1.workTbl.map Prod.fst).Nodup := by
    rw [hFPw]
    exact hndW
  have hb1bW : ∀ i ∈ b1.workTbl.map Prod.fst, i < b1.nextId := by
    rw [hFPw]
    intro i hi
    exact lt_of_lt_of_le (hbW i hi) hFPn
  have hb1af : tget b1.applicants aid = some (FP af) := by
    rw [hFPa]
    exact tget_tupdate_self FP hgetaf
  obtain ⟨mS, hmS⟩ : ∃ x, x = buildExpMap (fetchByIds b.workTbl
      (getAllLinkedRecordIds af.workLink)) := ⟨_, rfl⟩
  have hminv : ∀ k i, dlookLast mS k = some i →
      i ∈ getAllLinkedRecordIds af.workLink ∧ i < b1.nextId ∧
      ∃ r, tget b1.workTbl i = some r ∧ wkey r = k := by
    intro k i hk
    rw [hmS] at hk
    have hmem := dlookLast_mem hk
    simp only [buildExpMap] at hmem
    obtain ⟨p, hp, heq⟩ := List.mem_map.mp hmem
    injection heq with h1 h2
    obtain ⟨hpt, hpc⟩ := mem_fetchByIds_iff.mp hp
    subst h1
    subst h2
    refine ⟨hpc, lt_of_lt_of_le (hbW p.1 (List.mem_map_of_mem Prod.fst hpt)) hFPn,
      p.2, ?_, rfl⟩
    rw [hFPw]
    exact tget_eq_some_of_mem hndW (by simpa using hpt)
  obtain ⟨ext, po⟩ := procExps_char aid mS (getAllLinkedRecordIds af.workLink)
    S.experience b1 [] hb1ndW hb1ndA hb1bW hminv hE hEnd
  obtain ⟨F2, hF2a, hF2p⟩ := procExps_applicants aid mS S.experience b1 []
  obtain ⟨bR, hbR⟩ : ∃ x, x = (procExps aid mS S.experience b1 []).1 := ⟨_, rfl⟩
  obtain ⟨PR, hPRd⟩ : ∃ x, x = (procExps aid mS S.experience b1 []).2 := ⟨_, rfl⟩
  rw [← hbR, ← hPRd] at po
  rw [← hbR] at hF2a
  obtain ⟨toDel, htoDel⟩ : ∃ x, x = (getAllLinkedRecordIds af.workLink).filter
      (fun i => decide (¬ PR.contains i)) := ⟨_, rfl⟩
  have hmemtoDel : ∀ x, x ∈ toDel ↔ x ∈ getAllLinkedRecordIds af.workLink ∧ x ∉ PR := by
    intro x
    rw [htoDel, List.mem_filter]
    simp [List.elem_iff]
  have hexpeq : expStep b1 aid af S = deleteWorks bR toDel := by
    have hmeq : buildExpMap (fetchByIds b1.workTbl (getAllLinkedRecordIds af.workLink))
        = mS := by
      rw [hmS, hFPw]
    simp only [expStep, hmeq]
    rw [← hbR, ← hPRd, ← htoDel]
    split_ifs with hemp
    · have htnil : toDel = [] := by
        cases htd : toDel with
        | nil => rfl
        | cons a l =>
          rw [htd] at hemp
          simp [List.isEmpty] at hemp
      rw [htnil, deleteWorks_nil]
    · rfl
  obtain ⟨b2, hb2d⟩ : ∃ x, x = deleteWorks bR toDel := ⟨_, rfl⟩
  obtain ⟨gD, hgD⟩ : ∃ x : AppFields → AppFields, x = (fun y : AppFields =>
      { y with workLink := y.workLink.map (dropLinkIds toDel) }) := ⟨_, rfl⟩
  have hb2w : b2.workTbl = tdeleteMany bR.workTbl toDel := by
    rw [hb2d]
    rfl
  have hb2p : b2.personalTbl = b1.personalTbl := by
    rw [hb2d]
    exact po.hpt
  have hb2s : b2.salaryTbl = b1.salaryTbl := by
    rw [hb2d]
    exact po.hst
  have hb2n : b2.nextId = bR.nextId := by
    rw [hb2d]
    rfl
  have hb2a : b2.applicants = bR.applicants.map (fun p => (p.1, gD p.2)) := by
    rw [hb2d, hgD]
    rfl
  have hb2ndA : (b2.applicants.map Prod.fst).Nodup := by
    rw [hb2a, map_fst_map_snd gD]
    exact po.hndA2
  obtain ⟨gR, hgRget, hgRid, hgRpl, hgRsl, hgRcj, hgRwl⟩ := po.hgR (FP af) hb1af
  obtain ⟨af2, haf2⟩ : ∃ x, x = gD gR := ⟨_, rfl⟩
  have hb2af : tget b2.applicants aid = some af2 := by
    rw [hb2a, tget_map_snd gD, hgRget, haf2]
    rfl
  have haf2wl : af2.workLink = gR.workLink.map (dropLinkIds toDel) := by
    rw [haf2, hgD]
  have haf2pl : af2.personalLink = (FP af).personalLink := by
    rw [haf2, hgD]
    exact hgRpl
  have haf2sl : af2.salaryLink = af.salaryLink := by
    rw [haf2, hgD]
    show gR.salaryLink = af.salaryLink
    rw [hgRsl, hFPsl]
  have haf2cj : af2.compressedJson = af.compressedJson := by
    rw [haf2, hgD]
    show gR.compressedJson = af.compressedJson
    rw [hgRcj, hFPcj]
  have hW2 : getAllLinkedRecordIds af2.workLink =
      (getAllLinkedRecordIds af.workLink ++ ext.map Prod.fst).filter
        (fun i => decide (¬ toDel.contains i)) := by
    rw [haf2wl, getAll_mapDrop, hgRwl, hFPwl]
  have hexthigh : ∀ x ∈ ext.map Prod.fst, b.nextId ≤ x := by
    intro x hx
    exact le_trans hFPn (po.hextb x hx).1
  have hextnotcur : ∀ x ∈ ext.map Prod.fst, x ∉ getAllLinkedRecordIds af.workLink := by
    intro x hx hc
    exact absurd (hbWL x hc) (not_lt.mpr (hexthigh x hx))
  have hextnotdel : ∀ x ∈ ext.map Prod.fst, ¬ toDel.contains x := by
    intro x hx hc
    exact hextnotcur x hx ((hmemtoDel x).mp (List.elem_iff.mp hc)).1
  have hPRchar : ∀ x, x ∈ PR ↔
      (∃ e ∈ S.experience, dlookLast mS (ekey e) = some x) ∨ x ∈ ext.map Prod.fst := by
    intro x
    rw [po.hPR x]
    simp
  have hW2mem : ∀ x, x ∈ getAllLinkedRecordIds af2.workLink ↔
      ((∃ e ∈ S.experience, dlookLast mS (ekey e) = some x) ∨ x ∈ ext.map Prod.fst) := by
    intro x
    rw [hW2, List.mem_filter, List.mem_append]
    constructor
    · rintro ⟨hc | hx, hdec⟩
      · simp only [decide_eq_true_eq] at hdec
        have hxPR : x ∈ PR := by
          by_contra hxn
          exact hdec (List.elem_iff.mpr ((hmemtoDel x).mpr ⟨hc, hxn⟩))
        exact (hPRchar x).mp hxPR
      · exact Or.inr hx
    · rintro (⟨e, he, hl⟩ | hx)
      · have hxPR : x ∈ PR := (hPRchar x).mpr (Or.inl ⟨e, he, hl⟩)
        refine ⟨Or.inl (hminv (ekey e) x hl).1, ?_⟩
        simp only [decide_eq_true_eq]
        intro hcontains
        exact ((hmemtoDel x).mp (List.elem_iff.mp hcontains)).2 hxPR
      · refine ⟨Or.inr hx, ?_⟩
        simp only [decide_eq_true_eq]
        exact hextnotdel x hx
  have hW2PR : ∀ x ∈ getAllLinkedRecordIds af2.workLink, x ∈ PR := by
    intro x hx
    rcases (hW2mem x).mp hx with h | h
    · exact (hPRchar x).mpr (Or.inl h)
    · exact (hPRchar x).mpr (Or.inr h)
  have hb2ndS : (b2.salaryTbl.map Prod.fst).Nodup := by
    rw [hb2s, hFPs]
    exact hndS
  have hb2bS : ∀ i ∈ b2.salaryTbl.map Prod.fst, i < b2.nextId := by
    rw [hb2s, hFPs, hb2n]
    intro i hi
    exact lt_of_lt_of_le (hbS i hi) (le_trans hFPn po.hnx)
  obtain ⟨FS, hFSa, hFSp, hFSw, hFSpt, hFSl, hFSn, hFSndS, hFSsal⟩ :=
    salaryStep_post b2 aid af S hb2ndS hb2bS hstrS
  obtain ⟨b3, hb3⟩ : ∃ x, x = salaryStep b2 aid af S := ⟨_, rfl⟩
  rw [← hb3] at hFSa hFSw hFSpt hFSl hFSn hFSndS hFSsal
  obtain ⟨af3, haf3⟩ : ∃ x, x = FS af2 := ⟨_, rfl⟩
  obtain ⟨hFS2id, hFS2wl, hFS2pl, hFS2cj⟩ := hFSp af2
  rw [← haf3] at hFS2id hFS2wl hFS2pl hFS2cj
  have hb3af : tget b3.applicants aid = some af3 := by
    rw [hFSa, haf3]
    exact tget_tupdate_self FS hb2af
  have hdec : decompress b t = (b3, true) := by
    simp only [decompress, hfind, hcj]
    rw [← hb1, hexpeq, ← hb2d, ← hb3]
  have hd1 : (decompress b t).1 = b3 := by
    rw [hdec]
  have hd2 : (decompress b t).2 = true := by
    rw [hdec]
  have h5 : tget bR.applicants aid = some (F2 (FP af)) := by
    rw [hF2a]
    exact tget_tupdate_self F2 hb1af
  have h3 := hgRget
  rw [h5] at h3
  injection h3 with hgReq
  have h1f : b1.applicants.find? (fun p => decide (p.2.applicantId.getD "" = t))
      = some (aid, FP af) := by
    rw [hFPa]
    exact @find_applicants_tupdate b.applicants t aid af FP hndA hfind
      (fun g => (hFPp g).1)
  have h2f : bR.applicants.find? (fun p => decide (p.2.applicantId.getD "" = t))
      = some (aid, gR) := by
    rw [hF2a, @find_applicants_tupdate b1.applicants t aid (FP af) F2 hb1ndA h1f
      (fun g => (hF2p g).1), hgReq]
  have h4f : b2.applicants.find? (fun p => decide (p.2.applicantId.getD "" = t))
      = some (aid, af2) := by
    rw [hb2a, find_applicants_map (fun p => gD p.2)
      (fun x => by rw [hgD]), h2f, haf2]
    rfl
  have hfind3 : findApplicant b3 t = some (aid, af3) := by
    simp only [findApplicant]
    rw [hFSa, @find_applicants_tupdate b2.applicants t aid af2 FS hb2ndA h4f
      (fun g => (hFSp g).1), haf3]
  have hb3w : b3.workTbl = tdeleteMany bR.workTbl toDel := by
    rw [hFSw, hb2w]
  have hb3p : b3.personalTbl = b1.personalTbl := by
    rw [hFSpt, hb2p]
  have hb3ndP : (b3.personalTbl.map Prod.fst).Nodup := by
    rw [hb3p]
    exact hFPndP
  have hb3ndW : (b3.workTbl.map Prod.fst).Nodup := by
    rw [hb3w]
    exact po.hndW2.sublist (tdeleteMany_map_fst_sublist _ _)
  have htget3 : ∀ x ∈ PR, tget b3.workTbl x = tget bR.workTbl x := by
    intro x hx
    rw [hb3w]
    apply tget_tdeleteMany_not_mem
    intro hc
    exact ((hmemtoDel x).mp (List.elem_iff.mp hc)).2 hx
  have hmaster : ∀ x ∈ getAllLinkedRecordIds af2.workLink, ∃ r,
      tget b3.workTbl x = some r ∧ ∃ e ∈ S.experience, wkey r = ekey e ∧
        updWorkF e r = r ∧
        (dlookLast mS (ekey e) = some x ∨
          (dlookLast mS (ekey e) = none ∧ (x, e) ∈ ext)) := by
    intro x hx
    have hxPR := hW2PR x hx
    rcases (hW2mem x).mp hx with ⟨e, he, hl⟩ | hxe
    · obtain ⟨-, -, r, hget, hwk⟩ := po.hmR (ekey e) x hl
      obtain ⟨i, hiPR, hdisj, r2, hget2, hwk2, hupd2⟩ := po.hent e he
      have hix : i = x := by
        rcases hdisj with h | h
        · rw [hl] at h
          injection h with h2
          exact h2.symm
        · obtain ⟨-, hnone, -⟩ := po.hextq (i, e) h
          have hnone2 : dlookLast mS (ekey e) = none := hnone
          rw [hl] at hnone2
          exact Option.noConfusion hnone2
      rw [hix] at hget2
      have hrr : r = r2 := by
        rw [hget] at hget2
        injection hget2
      refine ⟨r, ?_, e, he, hwk, ?_, Or.inl hl⟩
      · rw [htget3 x hxPR]
        exact hget
      · rw [hrr]
        exact hupd2
    · obtain ⟨q, hq, hq1⟩ := List.mem_map.mp hxe
      obtain ⟨hgetq, hnoneq, hqPR⟩ := po.hextq q hq
      refine ⟨createWorkF q.2, ?_, q.2,
        po.hsub.subset (List.mem_map_of_mem Prod.snd hq),
        wkey_createWorkF q.2, updWorkF_createWorkF q.2, Or.inr ⟨hnoneq, ?_⟩⟩
      · rw [← hq1, htget3 q.1 hqPR]
        exact hgetq
      · rw [← hq1]
        exact hq
  have hentry : ∀ e ∈ S.experience, ∃ x ∈ getAllLinkedRecordIds af2.workLink, ∃ r,
      tget b3.workTbl x = some r ∧ wkey r = ekey e ∧ updWorkF e r = r := by
    intro e he
    obtain ⟨i, hiPR, hdisj, r, hget, hwk, hupd⟩ := po.hent e he
    have hiW2 : i ∈ getAllLinkedRecordIds af2.workLink := by
      rcases hdisj with h | h
      · exact (hW2mem i).mpr (Or.inl ⟨e, he, h⟩)
      · exact (hW2mem i).mpr (Or.inr (List.mem_map_of_mem Prod.fst h))
    exact ⟨i, hiW2, r, by rw [htget3 i hiPR]; exact hget, hwk, hupd⟩
  have hextkeys : (ext.map (fun q => ekey q.2)).Nodup := by
    have h6 : ((ext.map Prod.snd).map ekey).Nodup := hEnd.sublist (po.hsub.map ekey)
    rw [List.map_map] at h6
    exact h6
  have hinj : ∀ x ∈ getAllLinkedRecordIds af2.workLink,
      ∀ y ∈ getAllLinkedRecordIds af2.workLink, ∀ rx ry,
      tget b3.workTbl x = some rx → tget b3.workTbl y = some ry →
      wkey rx = wkey ry → x = y := by
    intro x hx y hy rx ry hgx hgy hk
    obtain ⟨rx2, hgx2, ex, hex, hwkx, -, hdx⟩ := hmaster x hx
    obtain ⟨ry2, hgy2, ey, hey, hwky, -, hdy⟩ := hmaster y hy
    rw [hgx] at hgx2
    injection hgx2 with hrx
    rw [hgy] at hgy2
    injection hgy2 with hry
    have hkk : ekey ex = ekey ey := by
      rw [← hwkx, ← hwky, ← hrx, ← hry, hk]
    rcases hdx with hdx | ⟨hdxn, hdxe⟩
    · rcases hdy with hdy | ⟨hdyn, hdye⟩
      · rw [hkk, hdy] at hdx
        injection hdx with h7
        exact h7.symm
      · rw [hkk, hdyn] at hdx
        exact Option.noConfusion hdx
    · rcases hdy with hdy | ⟨hdyn, hdye⟩
      · rw [← hkk, hdxn] at hdy
        exact Option.noConfusion hdy
      · have h8 : (x, ex) = (y, ey) :=
          List.inj_on_of_nodup_map hextkeys hdxe hdye hkk
        injection h8
  have hW2nd : (getAllLinkedRecordIds af2.workLink).Nodup := by
    rw [hW2]
    apply List.Nodup.filter
    apply List.Nodup.append hndWL po.hextnd
    intro a ha hae
    exact hextnotcur a hae ha
  have hstable : ∀ e ∈ S.experience, ∀ i, dlookLast mS (ekey e) = some i →
      i ∈ getAllLinkedRecordIds af2.workLink ∧ ∃ r,
        tget b3.workTbl i = some r ∧ wkey r = ekey e := by
    intro e he i hl
    have hiW2 : i ∈ getAllLinkedRecordIds af2.workLink :=
      (hW2mem i).mpr (Or.inl ⟨e, he, hl⟩)
    obtain ⟨-, -, r, hget, hwk⟩ := po.hmR (ekey e) i hl
    exact ⟨hiW2, r, by rw [htget3 i (hW2PR i hiW2)]; exact hget, hwk⟩
  have hpers3 : ∀ J, S.personal = some J → ∃ pid,
      getFirstLinkedRecordId af3.personalLink = some pid ∧
      ∀ p, tget b3.personalTbl pid = some p → updPersonalF J p = p := by
    intro J hJ
    obtain ⟨pid, hgfF, hupdF⟩ := hFPpers J hJ
    refine ⟨pid, ?_, ?_⟩
    · rw [hFS2pl, haf2pl]
      exact hgfF af rfl
    · intro p hp
      apply hupdF
      rw [hb3p] at hp
      exact hp
  have hsal3 : ∀ J, S.salary = some J → ∃ sid,
      getFirstLinkedRecordId af3.salaryLink = some sid ∧
      ∀ v, tget b3.salaryTbl sid = some v → updSalaryF J v = v := by
    intro J hJ
    obtain ⟨sid, hgfF, hupdF⟩ := hFSsal J hJ
    refine ⟨sid, ?_, hupdF⟩
    rw [haf3]
    exact hgfF af2 haf2sl
  have haf3cj : af3.compressedJson = af.compressedJson := by
    rw [hFS2cj, haf2cj]
  have happ : appWorkIds b3 aid = getAllLinkedRecordIds af3.workLink := by
    simp only [appWorkIds, hb3af]
  have hW3 : getAllLinkedRecordIds af3.workLink = getAllLinkedRecordIds af2.workLink := by
    rw [hFS2wl]
  have hmasterL : ∀ x ∈ getAllLinkedRecordIds af2.workLink, ∃ r,
      tget b3.workTbl x = some r ∧ ∃ e ∈ S.experience, wkey r = ekey e ∧
        updWorkF e r = r := by
    intro x hx
    obtain ⟨r, h11, e, he, h12, h13, -⟩ := hmaster x hx
    exact ⟨r, h11, e, he, h12, h13⟩
  rw [hd1]
  refine ⟨hd2, af3, hfind3, haf3cj, happ, hb3ndP, hb3ndW, hFSndS, hpers3, hsal3,
    ?_, ?_, ?_, ?_, ?_⟩
  · rw [hW3]
    exact hW2nd
  · rw [hW3]
    exact hmasterL
  · intro e he
    obtain ⟨x, hx, r, hg, hw, hu⟩ := hentry e he
    exact ⟨x, by rw [hW3]; exact hx, r, hg, hw, hu⟩
  · rw [hW3]
    exact hinj
  · intro e he i hl
    rw [← hmS] at hl
    obtain ⟨hi, r, hg, hw⟩ := hstable e he i hl
    exact ⟨by rw [hW3]; exact hi, r, hg, hw⟩

/-- C2 (corrected): for every applicant with a parseable snapshot whose
experience entries all carry Company and Title and have pairwise distinct
(company, title) keys, in a well-formed store: the decompression run succeeds;
afterwards the Work Experience records linked to the applicant correspond
exactly to the snapshot's experience array (every entry is realized by a
linked record with its key, every linked record realizes some entry, the
linked ids are distinct and distinct linked records carry distinct keys);
every entry whose key the reconciliation map sends to an existing record
keeps that record's internal id; and a second run with the unchanged snapshot
is the identity on the whole store, so it creates no duplicate Personal
Details, Salary Preferences or Work Experience records and moves no ids. -/
theorem decompress_reconciliation (b : Base) (t : String) (aid : Nat) (af : AppFields)
    (S : Snapshot)
    (hwf : WF b)
    (hfind : findApplicant b t = some (aid, af))
    (hcj : af.compressedJson = .ok S)
    (hE : ∀ e ∈ S.experience, e.company.isSome = true ∧ e.title.isSome = true)
    (hEnd : (S.experience.map ekey).Nodup) :
    (decompress b t).2 = true ∧
    (∀ e ∈ S.experience, ∃ i ∈ appWorkIds (decompress b t).1 aid, ∃ r,
        tget (decompress b t).1.workTbl i = some r ∧ wkey r = ekey e) ∧
    (∀ i ∈ appWorkIds (decompress b t).1 aid, ∃ r,
        tget (decompress b t).1.workTbl i = some r ∧
        ∃ e ∈ S.experience, wkey r = ekey e) ∧
    (appWorkIds (decompress b t).1 aid).Nodup ∧
    (∀ i ∈ appWorkIds (decompress b t).1 aid, ∀ j ∈ appWorkIds (decompress b t).1 aid,
        ∀ ri rj, tget (decompress b t).1.workTbl i = some ri →
          tget (decompress b t).1.workTbl j = some rj → wkey ri = wkey rj → i = j) ∧
    (∀ e ∈ S.experience, ∀ i,
        dlookLast (buildExpMap (fetchByIds b.workTbl (getAllLinkedRecordIds af.workLink)))
          (ekey e) = some i →
        i ∈ appWorkIds (decompress b t).1 aid ∧ ∃ r,
          tget (decompress b t).1.workTbl i = some r ∧ wkey r = ekey e) ∧
    decompress (decompress b t).1 t = ((decompress b t).1, true) := by
  obtain ⟨hret, af3, hfind3, hcj3, happ, hndP3, hndW3, hndS3, hpers3, hsal3,
    hW3nd, hmaster, hentry, hinj, hstable⟩ :=
    decompress_run_post b t aid af S hwf hfind hcj hE hEnd
  refine ⟨hret, ?_, ?_, ?_, ?_, ?_, ?_⟩
  · intro e he
    obtain ⟨x, hx, r, hg, hw, -⟩ := hentry e he
    exact ⟨x, by rw [happ]; exact hx, r, hg, hw⟩
  · intro i hi
    rw [happ] at hi
    obtain ⟨r, hg, e, he, hw, -⟩ := hmaster i hi
    exact ⟨r, hg, e, he, hw⟩
  · rw [happ]
    exact hW3nd
  · rw [happ]
    exact hinj
  · intro e he i hl
    obtain ⟨hi, hr⟩ := hstable e he i hl
    exact ⟨by rw [happ]; exact hi, hr⟩
  · have hcjS : af3.compressedJson = .ok S := by
      rw [hcj3, hcj]
    have hknd3 : ((fetchByIds (decompress b t).1.workTbl
        (getAllLinkedRecordIds af3.workLink)).map (fun p => wkey p.2)).Nodup := by
      apply List.Nodup.map_on
      · intro p hp q hq hpq
        obtain ⟨hpt, hpc⟩ := mem_fetchByIds_iff.mp hp
        obtain ⟨hqt, hqc⟩ := mem_fetchByIds_iff.mp hq
        have hgp : tget (decompress b t).1.workTbl p.1 = some p.2 :=
          tget_eq_some_of_mem hndW3 (by simpa using hpt)
        have hgq : tget (decompress b t).1.workTbl q.1 = some q.2 :=
          tget_eq_some_of_mem hndW3 (by simpa using hqt)
        have h1 : p.1 = q.1 := hinj p.1 hpc q.1 hqc p.2 q.2 hgp hgq hpq
        have h2 := hgp
        rw [h1, hgq] at h2
        injection h2 with h3
        exact Prod.ext h1 h3.symm
      · exact List.Nodup.of_map Prod.fst (fetchByIds_map_fst_nodup _ hndW3)
    refine decompress_id_full (decompress b t).1 t aid af3 S hfind3 hcjS hndP3 hndW3
      hndS3 hpers3 hsal3 hE ?_ ?_
    · intro e he
      obtain ⟨x, hx, r, hg, hw, hu⟩ := hentry e he
      refine ⟨x, r, ?_, hg, hu⟩
      rw [← hw]
      exact expMap_lookup hndW3 hknd3 hx hg
    · intro j hj
      obtain ⟨r, hg, e, he, hw, -⟩ := hmaster j hj
      refine ⟨e, he, ?_⟩
      rw [← hw]
      exact expMap_lookup hndW3 hknd3 hj hg

/-- C2 counterexample: with a snapshot entry lacking a title, a duplicated
(company, title) entry, and two linked records sharing a key, decompression
drops the id of a record whose (company, title) pair is unchanged in the
snapshot, creates two linked records with the same key, and a second run with
the unchanged snapshot mutates the Work Experience table again. -/
theorem decompress_reconciliation_cex :
    tget (decompress bRec "APP1").1.workTbl 1 = none ∧
    (∃ r20 r21 : WorkFields,
      tget (decompress bRec "APP1").1.workTbl 20 = some r20 ∧
      tget (decompress bRec "APP1").1.workTbl 21 = some r21 ∧ wkey r20 = wkey r21) ∧
    (decompress (decompress bRec "APP1").1 "APP1").1.workTbl
      ≠ (decompress bRec "APP1").1.workTbl := by
  refine ⟨by decide, ⟨⟨some "C", some "T2", none, none, []⟩,
    ⟨some "C", some "T2", none, none, []⟩, by decide, by decide, by decide⟩, by decide⟩

/-- C2 witness: the theorem applied at a well-formed store with a clean
snapshot, one entry matching the linked record and one entry new. -/
theorem decompress_reconciliation_witness :
    (decompress bCleanSnap "APP1").2 = true ∧
    decompress (decompress bCleanSnap "APP1").1 "APP1"
      = ((decompress bCleanSnap "APP1").1, true) := by
  obtain ⟨h1, -, -, -, -, -, h7⟩ := decompress_reconciliation bCleanSnap "APP1" 10
    { afBlank with workLink := some [.str 1], compressedJson := .ok snapClean }
    snapClean (by unfold WF; decide) (by decide) rfl (by decide) (by decide)
  exact ⟨h1, h7⟩

end Mercor
